import Mathlib

/-!
Verification of the GF(2) linear-algebra kernel, the symplectic basis
transform, the canonicalization algorithm and the gate-list utilities of
`decompose.py` (random_quantum_circuits).

Binary matrices are embedded as total functions `Nat → Nat → Int` together
with explicit dimensions; all arithmetic is carried out with the integer
operations of the source (`+`, `-`, `% 2`), matching numpy's behaviour on
integer arrays (Python's `%` on a positive modulus agrees with `Int.emod`).
Every routine of the source file is translated loop by loop: a Python `for`
loop becomes a `List.foldl` over the corresponding index list, and early
`break`s become the explicit guards the source uses.
-/

namespace RQC

/-- Entry-level representation of a numpy integer matrix: a total function
from (row, column) to the stored integer.  The dimensions of each matrix are
passed separately, mirroring `shape` in the source. -/
abbrev BMat := Nat → Nat → Int

/-- Predicate stating that `A` stores only the GF(2) values 0 and 1 inside
its `n × m` shape. -/
def IsBinary (A : BMat) (n m : Nat) : Prop :=
  ∀ r < n, ∀ c < m, A r c = 0 ∨ A r c = 1

instance (A : BMat) (n m : Nat) : Decidable (IsBinary A n m) := by
  unfold IsBinary; infer_instance

/-- Column operation `M[:, t] = (M[:, t] + M[:, s]) % 2` of the source:
add column `s` into column `t` modulo 2. -/
def addColInto (M : BMat) (s t : Nat) : BMat :=
  fun r c => if c = t then (M r t + M r s) % 2 else M r c

/-- Row operation `M[t, :] = (M[t, :] + M[s, :]) % 2` of the source:
add row `s` into row `t` modulo 2. -/
def addRowInto (M : BMat) (s t : Nat) : BMat :=
  fun r c => if r = t then (M t c + M s c) % 2 else M r c

/-- Matrix produced by `np.identity`, as an entry function. -/
def identityMat : BMat :=
  fun r c => if r = c then 1 else 0

/-- Matrix produced by `np.hstack((L, R))` where `L` has `n` columns. -/
def hstack (L R : BMat) (n : Nat) : BMat :=
  fun r c => if c < n then L r c else R r (c - n)

/-- Matrix produced by `np.vstack((T, B))` where `T` has `n` rows. -/
def vstack (T B : BMat) (n : Nat) : BMat :=
  fun r c => if r < n then T r c else B (r - n) c

/-! ### `col_wise_gaussian_elimination_steps` -/

/-- State of the column-wise elimination of
`col_wise_gaussian_elimination_steps`: the working copy `M` and the
accumulated step list. -/
structure ColElimState where
  M : BMat
  steps : List (Nat × Nat)

/-- Body of `if M[i, i] != 1: for j in range(i + 1, n): ... break` in
`col_wise_gaussian_elimination_steps`: make sure there is a 1 in the pivot
position by adding the first suitable column `j > i` into column `i`. -/
def colFixPivot (n i : Nat) (st : ColElimState) : ColElimState :=
  if st.M i i ≠ 1 then
    match (List.range' (i + 1) (n - (i + 1))).find? (fun j => st.M i j == 1) with
    | some j => ⟨addColInto st.M j i, st.steps ++ [(j, i)]⟩
    | none => st
  else st

/-- Body of the clearing loops of `col_wise_gaussian_elimination_steps`:
if `M[i, j] == 1`, add column `i` into column `j` and record step `(i, j)`. -/
def colClearAt (i : Nat) (st : ColElimState) (j : Nat) : ColElimState :=
  if st.M i j = 1 then ⟨addColInto st.M i j, st.steps ++ [(i, j)]⟩ else st

/-- One iteration of the first loop of `col_wise_gaussian_elimination_steps`
(fix the pivot of column `i`, then clear the right side of row `i`). -/
def colPhase1Step (n : Nat) (st : ColElimState) (i : Nat) : ColElimState :=
  (List.range' (i + 1) (n - (i + 1))).foldl (colClearAt i) (colFixPivot n i st)

/-- One iteration of the second loop of `col_wise_gaussian_elimination_steps`
(clear the left side of row `i`, scanning `j = i - 1, ..., 0`). -/
def colPhase2Step (st : ColElimState) (i : Nat) : ColElimState :=
  ((List.range i).reverse).foldl (colClearAt i) st

/-- Full run of `col_wise_gaussian_elimination_steps` on an `n × n` matrix,
returning the final working matrix together with the recorded steps. -/
def colElimRun (A : BMat) (n : Nat) : ColElimState :=
  ((List.range n).reverse).foldl colPhase2Step
    ((List.range n).foldl (colPhase1Step n) ⟨A, []⟩)

/-- Step list returned by `col_wise_gaussian_elimination_steps(A)` for an
`n × n` matrix `A`. -/
def col_wise_gaussian_elimination_steps (A : BMat) (n : Nat) : List (Nat × Nat) :=
  (colElimRun A n).steps

/-- Replay of a recorded step list as column additions, as in the statement
of the spec: step `(s, t)` adds column `s` into column `t` modulo 2. -/
def applyColSteps (A : BMat) (steps : List (Nat × Nat)) : BMat :=
  steps.foldl (fun M p => addColInto M p.1 p.2) A

/-! ### `row_wise_gaussian_elimination_pivots` and `get_rank` -/

/-- State of the row-wise elimination of
`row_wise_gaussian_elimination_pivots`: working copy `M`, current row
counter `k` and the accumulated pivot list. -/
structure RowElimState where
  M : BMat
  k : Nat
  pivots : List (Nat × Nat)

/-- Pivot search of `row_wise_gaussian_elimination_pivots` for column `j`:
returns the updated matrix and the `found_pivot` flag.  If `M[k, j] != 1`,
the first row `i > k` with `M[i, j] == 1` (if any) is added into row `k`. -/
def rowFindPivot (n k j : Nat) (M : BMat) : BMat × Bool :=
  if M k j = 1 then (M, true)
  else
    match (List.range' (k + 1) (n - (k + 1))).find? (fun i => M i j == 1) with
    | some i => (addRowInto M i k, true)
    | none => (M, false)

/-- Elimination below a freshly found pivot `(k, j)`: every row `i > k` that
still has a 1 in column `j` gets row `k` added into it. -/
def rowElimBelow (n k j : Nat) (M : BMat) : BMat :=
  (List.range' (k + 1) (n - (k + 1))).foldl
    (fun N i => if N i j = 1 then addRowInto N k i else N) M

/-- One iteration (for column `j`) of the main loop of
`row_wise_gaussian_elimination_pivots`; the `if k == n: break` of the source
is the identity guard in front. -/
def rowStep (n : Nat) (st : RowElimState) (j : Nat) : RowElimState :=
  if st.k = n then st
  else
    match rowFindPivot n st.k j st.M with
    | (M1, true) => ⟨rowElimBelow n st.k j M1, st.k + 1, st.pivots ++ [(st.k, j)]⟩
    | (M1, false) => ⟨M1, st.k, st.pivots⟩

/-- Full run of `row_wise_gaussian_elimination_pivots` on an `n × m`
matrix. -/
def rowElimRun (A : BMat) (n m : Nat) : RowElimState :=
  (List.range m).foldl (rowStep n) ⟨A, 0, []⟩

/-- Pivot list returned by `row_wise_gaussian_elimination_pivots(A)` for an
`n × m` matrix `A`. -/
def row_wise_gaussian_elimination_pivots (A : BMat) (n m : Nat) : List (Nat × Nat) :=
  (rowElimRun A n m).pivots

/-- Translation of `get_rank(A)`: the number of pivots found by the
row-wise elimination. -/
def get_rank (A : BMat) (n m : Nat) : Nat :=
  (row_wise_gaussian_elimination_pivots A n m).length

/-! ### `find_M` -/

/-- Inner assignment of `find_M`:
`M[i, j] = (A[i, j] - sum(M[i, k] * M[j, k] for k in range(j))) % 2`. -/
def findMSet (A M : BMat) (j i : Nat) : BMat :=
  fun r c =>
    if r = i ∧ c = j then
      (A i j - ((List.range j).map (fun k => M i k * M j k)).sum) % 2
    else M r c

/-- Translation of `find_M(A)` for an `n × n` matrix `A`: starting from the
identity, fill in the strictly-lower-triangular entries column by column. -/
def find_M (A : BMat) (n : Nat) : BMat :=
  (List.range n).foldl
    (fun M j => (List.range' (j + 1) (n - (j + 1))).foldl (fun N i => findMSet A N j i) M)
    identityMat

/-- Residual `L = ((M @ M.T) - A) % 2` computed by the callers of `find_M`,
with the matrix product taken over the `n` inner indices. -/
def defectL (A M : BMat) (n : Nat) : BMat :=
  fun i j => (((List.range n).map (fun k => M i k * M j k)).sum - A i j) % 2

/-! ### `get_hadamard_steps` -/

/-- Translation of `get_hadamard_steps(c, d)` for `n × n` blocks `c`, `d`:
row-reduce the `n × 2n` concatenation and keep the pivot columns of the
right half, shifted back by `n`. -/
def get_hadamard_steps (c d : BMat) (n : Nat) : List Nat :=
  ((row_wise_gaussian_elimination_pivots (hstack c d n) n (2 * n)).filter
    (fun p => decide (n ≤ p.2))).map (fun p => p.2 - n)

/-- Effect on the `c` block of applying a Hadamard to each qubit in `steps`:
column `i` of `c` is replaced by column `i` of `d` for every `i ∈ steps`.
Used to state the full-rank consequence claimed for `get_hadamard_steps`. -/
def hadamardApplied (c d : BMat) (steps : List Nat) : BMat :=
  fun r j => if j ∈ steps then d r j else c r j

/-! ### `transform_symplectic` -/

/-- Block `a` of `transform_symplectic`: `a[j, k] = S[2k, 2j]`. -/
def tsBlockA (S : BMat) : BMat := fun j k => S (2 * k) (2 * j)

/-- Block `b` of `transform_symplectic`: `b[j, k] = S[2k + 1, 2j]`. -/
def tsBlockB (S : BMat) : BMat := fun j k => S (2 * k + 1) (2 * j)

/-- Block `c` of `transform_symplectic`: `c[j, k] = S[2k, 2j + 1]`. -/
def tsBlockC (S : BMat) : BMat := fun j k => S (2 * k) (2 * j + 1)

/-- Block `d` of `transform_symplectic`: `d[j, k] = S[2k + 1, 2j + 1]`. -/
def tsBlockD (S : BMat) : BMat := fun j k => S (2 * k + 1) (2 * j + 1)

/-- Translation of `transform_symplectic(S)` for a `2n × 2n` matrix `S`:
build the four blocks and assemble them with `hstack` and `vstack` exactly
as the source does. -/
def transform_symplectic (S : BMat) (n : Nat) : BMat :=
  vstack (hstack (tsBlockA S) (tsBlockB S) n) (hstack (tsBlockC S) (tsBlockD S) n) n

/-! ### GF(2) semantics helpers -/

/-- Value of an integer entry in the two-element field. -/
def z2 (x : Int) : ZMod 2 := (x : ZMod 2)

theorem z2_emod (x : Int) : z2 (x % 2) = z2 x := by
  unfold z2
  have h : (x % 2 : Int) = x - 2 * (x / 2) := by rw [Int.emod_def]
  rw [h]
  push_cast
  have h2 : ((2 : Int) : ZMod 2) = 0 := by decide
  push_cast at h2
  rw [h2]
  ring

theorem z2_add_emod (x y : Int) : z2 ((x + y) % 2) = z2 x + z2 y := by
  rw [z2_emod]; unfold z2; push_cast; ring

theorem z2_zero : z2 0 = 0 := rfl

theorem z2_one : z2 1 = 1 := rfl

/-- Linear independence, over GF(2), of the first `n` rows of `A` restricted
to their first `n` columns: only the trivial linear combination of the rows
vanishes.  For a square `n × n` binary matrix this is full rank. -/
def RowsIndep (A : BMat) (n m : Nat) : Prop :=
  ∀ cv : Fin n → ZMod 2,
    (∀ j : Fin m, (∑ i : Fin n, cv i * z2 (A i.1 j.1)) = 0) → cv = 0

instance (A : BMat) (n m : Nat) : Decidable (RowsIndep A n m) := by
  unfold RowsIndep; infer_instance

/-- Identity test on the `n × n` block of a matrix. -/
def IsIdentityOn (M : BMat) (n : Nat) : Prop :=
  ∀ r < n, ∀ c < n, M r c = if r = c then (1 : Int) else 0

instance (M : BMat) (n : Nat) : Decidable (IsIdentityOn M n) := by
  unfold IsIdentityOn; infer_instance

/-! ### Claim C8: `transform_symplectic` quadrants -/

/-- C8: for every `2n × 2n` binary matrix `S`, `transform_symplectic(S)`
is the block matrix `[[a, b], [c, d]]` whose `n × n` quadrants satisfy
`a[j,k] = S[2k, 2j]`, `b[j,k] = S[2k+1, 2j]`, `c[j,k] = S[2k, 2j+1]` and
`d[j,k] = S[2k+1, 2j+1]` for all `j, k < n`. -/
theorem transform_symplectic_quadrants (S : BMat) (n : Nat)
    (j k : Nat) (hj : j < n) (hk : k < n) :
    transform_symplectic S n j k = S (2 * k) (2 * j) ∧
    transform_symplectic S n j (n + k) = S (2 * k + 1) (2 * j) ∧
    transform_symplectic S n (n + j) k = S (2 * k) (2 * j + 1) ∧
    transform_symplectic S n (n + j) (n + k) = S (2 * k + 1) (2 * j + 1) := by
  unfold transform_symplectic vstack hstack tsBlockA tsBlockB tsBlockC tsBlockD
  have hnk : ¬ n + k < n := by omega
  have hnj : ¬ n + j < n := by omega
  have hkk : n + k - n = k := by omega
  have hjj : n + j - n = j := by omega
  refine ⟨?_, ?_, ?_, ?_⟩ <;> simp [hj, hk, hnk, hnj, hkk, hjj]

/-- Witness for `transform_symplectic_quadrants` at a concrete input. -/
theorem transform_symplectic_quadrants_witness :
    transform_symplectic (fun r c => (r + 2 * c : Int)) 1 0 0 = (0 : Int) ∧
    transform_symplectic (fun r c => (r + 2 * c : Int)) 1 0 1 = (1 : Int) ∧
    transform_symplectic (fun r c => (r + 2 * c : Int)) 1 1 0 = (2 : Int) ∧
    transform_symplectic (fun r c => (r + 2 * c : Int)) 1 1 1 = (3 : Int) := by
  have h := transform_symplectic_quadrants (fun r c => (r + 2 * c : Int)) 1 0 0
    (by decide) (by decide)
  simpa using h

/-! ### Gate records and `apply_gates` -/

/-- Gate record `(gate, q_1, q_2)` of the source: a kind character, the
first qubit, and an optional second qubit (`None` for single-qubit gates). -/
abbrev Gate := Char × Nat × Option Nat

/-- Abstract simulator handle for `apply_gates`: one mutator per gate kind,
acting on an opaque simulator state `σ`.  `cnot` receives the record's
second field as stored, as the source passes `q2` through unchecked. -/
structure GateSimOps (σ : Type) where
  cnot : Nat → Option Nat → σ → σ
  hadamard : Nat → σ → σ
  phase : Nat → σ → σ
  pauliZ : Nat → σ → σ
  pauliX : Nat → σ → σ
  pauliY : Nat → σ → σ

/-- Kind characters accepted by the dispatch of `apply_gates`. -/
def recognizedKind (k : Char) : Bool :=
  k == 'c' || k == 'h' || k == 'p' || k == 'z' || k == 'x' || k == 'y'

/-- Single dispatch step of `apply_gates` on a recognized record (the
`if/elif` chain of the source, without the error arm). -/
def dispatchGate {σ : Type} (ops : GateSimOps σ) (s : σ) (g : Gate) : σ :=
  if g.1 = 'c' then ops.cnot g.2.1 g.2.2 s
  else if g.1 = 'h' then ops.hadamard g.2.1 s
  else if g.1 = 'p' then ops.phase g.2.1 s
  else if g.1 = 'z' then ops.pauliZ g.2.1 s
  else if g.1 = 'x' then ops.pauliX g.2.1 s
  else if g.1 = 'y' then ops.pauliY g.2.1 s
  else s

/-- Translation of `apply_gates(gates, sim)`.  The simulator is mutated in
place by the source, so the embedding returns the simulator state reached
when the function exits together with the raised error, if any: on an
unrecognized kind the iteration stops at that record with the
`ValueError` message of the source. -/
def apply_gates {σ : Type} (ops : GateSimOps σ) : List Gate → σ → σ × Option String
  | [], s => (s, none)
  | (k, q1, q2) :: rest, s =>
    if k = 'c' then apply_gates ops rest (ops.cnot q1 q2 s)
    else if k = 'h' then apply_gates ops rest (ops.hadamard q1 s)
    else if k = 'p' then apply_gates ops rest (ops.phase q1 s)
    else if k = 'z' then apply_gates ops rest (ops.pauliZ q1 s)
    else if k = 'x' then apply_gates ops rest (ops.pauliX q1 s)
    else if k = 'y' then apply_gates ops rest (ops.pauliY q1 s)
    else (s, some "gate type must be in \x7b'c', 'h', 'p', 'z', 'x', 'y'\x7d")

theorem apply_gates_cons_recognized {σ : Type} (ops : GateSimOps σ)
    (g : Gate) (rest : List Gate) (s : σ) (hg : recognizedKind g.1 = true) :
    apply_gates ops (g :: rest) s = apply_gates ops rest (dispatchGate ops s g) := by
  obtain ⟨k, q1, q2⟩ := g
  simp only [recognizedKind, Bool.or_eq_true, beq_iff_eq] at hg
  rcases hg with ((((h | h) | h) | h) | h) | h <;>
    simp [apply_gates, dispatchGate, h]

theorem apply_gates_cons_unrecognized {σ : Type} (ops : GateSimOps σ)
    (g : Gate) (rest : List Gate) (s : σ) (hg : recognizedKind g.1 = false) :
    apply_gates ops (g :: rest) s =
      (s, some "gate type must be in \x7b'c', 'h', 'p', 'z', 'x', 'y'\x7d") := by
  obtain ⟨k, q1, q2⟩ := g
  simp only [recognizedKind, Bool.or_eq_false_iff, beq_eq_false_iff_ne, ne_eq] at hg
  obtain ⟨⟨⟨⟨⟨h1, h2⟩, h3⟩, h4⟩, h5⟩, h6⟩ := hg
  simp [apply_gates, h1, h2, h3, h4, h5, h6]

theorem apply_gates_ok_of_recognized {σ : Type} (ops : GateSimOps σ) :
    ∀ (gates : List Gate) (s : σ), (∀ g ∈ gates, recognizedKind g.1 = true) →
      apply_gates ops gates s = (gates.foldl (dispatchGate ops) s, none) := by
  intro gates
  induction gates with
  | nil => intro s _; rfl
  | cons g rest ih =>
    intro s hall
    rw [apply_gates_cons_recognized ops g rest s (hall g (List.mem_cons_self g rest))]
    rw [List.foldl_cons]
    exact ih (dispatchGate ops s g) (fun x hx => hall x (List.mem_cons_of_mem g hx))

/-- C6: `apply_gates` dispatches each record to the matching simulator
operation (`'c' ↦ cnot`, `'h' ↦ hadamard`, `'p' ↦ phase`, `'z'/'x'/'y' ↦`
the Pauli mutators), raises an error iff some record's kind lies outside
`{'c','h','p','z','x','y'}`, and on a list of recognized kinds it never
raises and returns the fold of the dispatched operations. -/
theorem apply_gates_dispatch_and_error {σ : Type} (ops : GateSimOps σ) :
    (∀ (q1 : Nat) (q2 : Option Nat) (rest : List Gate) (s : σ),
        apply_gates ops (('c', q1, q2) :: rest) s =
          apply_gates ops rest (ops.cnot q1 q2 s) ∧
        apply_gates ops (('h', q1, q2) :: rest) s =
          apply_gates ops rest (ops.hadamard q1 s) ∧
        apply_gates ops (('p', q1, q2) :: rest) s =
          apply_gates ops rest (ops.phase q1 s) ∧
        apply_gates ops (('z', q1, q2) :: rest) s =
          apply_gates ops rest (ops.pauliZ q1 s) ∧
        apply_gates ops (('x', q1, q2) :: rest) s =
          apply_gates ops rest (ops.pauliX q1 s) ∧
        apply_gates ops (('y', q1, q2) :: rest) s =
          apply_gates ops rest (ops.pauliY q1 s)) ∧
    (∀ (gates : List Gate) (s : σ),
        ((apply_gates ops gates s).2.isSome = true ↔
          ∃ g ∈ gates, recognizedKind g.1 = false)) ∧
    (∀ (gates : List Gate) (s : σ), (∀ g ∈ gates, recognizedKind g.1 = true) →
        apply_gates ops gates s = (gates.foldl (dispatchGate ops) s, none)) := by
  refine ⟨?_, ?_, apply_gates_ok_of_recognized ops⟩
  · intro q1 q2 rest s
    refine ⟨?_, ?_, ?_, ?_, ?_, ?_⟩ <;> simp [apply_gates]
  · intro gates
    induction gates with
    | nil =>
      intro s
      simp [apply_gates]
    | cons g rest ih =>
      intro s
      by_cases hg : recognizedKind g.1 = true
      · rw [apply_gates_cons_recognized ops g rest s hg]
        rw [ih (dispatchGate ops s g)]
        constructor
        · intro ⟨x, hx, hxbad⟩
          exact ⟨x, List.mem_cons_of_mem g hx, hxbad⟩
        · intro ⟨x, hx, hxbad⟩
          rcases List.mem_cons.1 hx with h | h
          · subst h; rw [hg] at hxbad; cases hxbad
          · exact ⟨x, h, hxbad⟩
      · rw [apply_gates_cons_unrecognized ops g rest s (Bool.eq_false_iff.2 hg)]
        simp only [Option.isSome_some, true_iff]
        exact ⟨g, List.mem_cons_self g rest, Bool.eq_false_iff.2 hg⟩

/-- Witness for `apply_gates_dispatch_and_error`: on a concrete recognized
list no error is raised, and on a list with a `'q'` record an error is
raised. -/
theorem apply_gates_dispatch_and_error_witness :
    (apply_gates ⟨fun _ _ s => s, fun _ s => s, fun _ s => s, fun _ s => s,
        fun _ s => s, fun _ s => s⟩
      [('h', 0, none), ('c', 0, some 1)] (0 : Nat)).2 = none ∧
    ((apply_gates ⟨fun _ _ s => s, fun _ s => s, fun _ s => s, fun _ s => s,
        fun _ s => s, fun _ s => s⟩
      [('q', 0, none)] (0 : Nat)).2.isSome = true) := by
  constructor
  · have h := (apply_gates_dispatch_and_error
      (⟨fun _ _ s => s, fun _ s => s, fun _ s => s, fun _ s => s,
        fun _ s => s, fun _ s => s⟩ : GateSimOps Nat)).2.2
      [('h', 0, none), ('c', 0, some 1)] 0 (by decide)
    rw [h]
  · have h := (apply_gates_dispatch_and_error
      (⟨fun _ _ s => s, fun _ s => s, fun _ s => s, fun _ s => s,
        fun _ s => s, fun _ s => s⟩ : GateSimOps Nat)).2.1
      [('q', 0, none)] 0
    exact h.2 ⟨('q', 0, none), List.mem_cons_self _ _, by decide⟩

/-- Tracing simulator used to observe which mutators `apply_gates` invokes:
the state is the list of invocation records. -/
def traceOps : GateSimOps (List Gate) :=
  ⟨fun q1 q2 s => s ++ [('c', q1, q2)],
   fun q s => s ++ [('h', q, none)],
   fun q s => s ++ [('p', q, none)],
   fun q s => s ++ [('z', q, none)],
   fun q s => s ++ [('x', q, none)],
   fun q s => s ++ [('y', q, none)]⟩

/-- Counterexample to C7 as stated: on the list
`[('h',0,None), ('q',0,None)]` the replay fails, but the simulator is not
left unchanged — the recognized prefix `('h',0)` has been applied before
the failure is reported. -/
theorem apply_gates_failure_mutates_sim :
    (apply_gates traceOps [('h', 0, none), ('q', 0, none)] []).2.isSome = true ∧
    (apply_gates traceOps [('h', 0, none), ('q', 0, none)] []).1 ≠ ([] : List Gate) := by
  constructor
  · rfl
  · intro h
    simp [apply_gates, traceOps] at h

/-- C7 amended: on a gate list containing an unrecognized record,
`apply_gates` fails, and the simulator state it leaves behind is the one
obtained by applying the longest recognized prefix of the list (so the
prefix before the first unrecognized record has been applied, with no
rollback). -/
theorem apply_gates_failure_applies_recognized_part {σ : Type}
    (ops : GateSimOps σ) :
    ∀ (gates : List Gate) (s : σ), (∃ g ∈ gates, recognizedKind g.1 = false) →
      (apply_gates ops gates s).2.isSome = true ∧
      (apply_gates ops gates s).1 =
        (gates.takeWhile (fun g => recognizedKind g.1)).foldl (dispatchGate ops) s := by
  intro gates
  induction gates with
  | nil => intro s ⟨g, hg, _⟩; cases hg
  | cons g rest ih =>
    intro s hbad
    by_cases hg : recognizedKind g.1 = true
    · rw [apply_gates_cons_recognized ops g rest s hg]
      have hrest : ∃ x ∈ rest, recognizedKind x.1 = false := by
        obtain ⟨x, hx, hxbad⟩ := hbad
        rcases List.mem_cons.1 hx with h | h
        · subst h; rw [hg] at hxbad; cases hxbad
        · exact ⟨x, h, hxbad⟩
      have h := ih (dispatchGate ops s g) hrest
      rw [List.takeWhile_cons, hg]
      simpa using h
    · have hgf : recognizedKind g.1 = false := Bool.eq_false_iff.2 hg
      rw [apply_gates_cons_unrecognized ops g rest s hgf]
      rw [List.takeWhile_cons, hgf]
      simp

/-- Witness for `apply_gates_failure_applies_recognized_part` at the
concrete failing list `[('h',0,None), ('q',0,None)]`. -/
theorem apply_gates_failure_applies_recognized_part_witness :
    (apply_gates traceOps [('h', 0, none), ('q', 0, none)] []).2.isSome = true ∧
    (apply_gates traceOps [('h', 0, none), ('q', 0, none)] []).1 = [('h', 0, none)] := by
  have h := apply_gates_failure_applies_recognized_part traceOps
    [('h', 0, none), ('q', 0, none)] []
    ⟨('q', 0, none), by simp, by decide⟩
  exact ⟨h.1, by rw [h.2]; rfl⟩

/-! ### `decompose_state` -/

/-- Abstract simulator for `decompose_state`: the tableau is a `2n × 2n`
binary matrix owned by the simulator, and each mutator transforms it
according to the simulator's (external) stabilizer-update rules. -/
structure SimOps where
  hadamard : Nat → BMat → BMat
  cnot : Nat → Nat → BMat → BMat
  phase : Nat → BMat → BMat

/-- Running state of `decompose_state`: the simulator's tableau, the
accumulated gate list `gates`, and the log of gate applications actually
issued to the simulator (one record per `sim.apply_*` call). -/
structure DecState where
  state : BMat
  gates : List Gate
  log : List Gate

/-- One `sim.apply_hadamard(i)` call. -/
def simApplyH (ops : SimOps) (i : Nat) (st : DecState) : DecState :=
  ⟨ops.hadamard i st.state, st.gates, st.log ++ [('h', i, none)]⟩

/-- One `sim.apply_cnot(i, j)` call. -/
def simApplyC (ops : SimOps) (i j : Nat) (st : DecState) : DecState :=
  ⟨ops.cnot i j st.state, st.gates, st.log ++ [('c', i, some j)]⟩

/-- One `sim.apply_phase(i)` call. -/
def simApplyP (ops : SimOps) (i : Nat) (st : DecState) : DecState :=
  ⟨ops.phase i st.state, st.gates, st.log ++ [('p', i, none)]⟩

/-- One `gates.append(...)` call. -/
def emit (g : Gate) (st : DecState) : DecState :=
  ⟨st.state, st.gates ++ [g], st.log⟩

/-- Quadrant `a = state[0:n, 0:n]`. -/
def quadA (s : BMat) : BMat := fun i j => s i j

/-- Quadrant `b = state[0:n, n:2n]`. -/
def quadB (s : BMat) (n : Nat) : BMat := fun i j => s i (n + j)

/-- Quadrant `c = state[n:2n, 0:n]`. -/
def quadC (s : BMat) (n : Nat) : BMat := fun i j => s (n + i) j

/-- Quadrant `d = state[n:2n, n:2n]`. -/
def quadD (s : BMat) (n : Nat) : BMat := fun i j => s (n + i) (n + j)

/-- Loop of steps 1 and 7: apply a Hadamard to each listed qubit, recording
each applied gate. -/
def hadamardSweep (ops : SimOps) (steps : List Nat) (st : DecState) : DecState :=
  steps.foldl (fun st i => emit ('h', i, none) (simApplyH ops i st)) st

/-- Loop of steps 2, 6 and 11: apply a CNOT per recorded elimination step. -/
def cnotSweep (ops : SimOps) (steps : List (Nat × Nat)) (st : DecState) : DecState :=
  steps.foldl (fun st p => emit ('c', p.1, some p.2) (simApplyC ops p.1 p.2 st)) st

/-- Phase-correction site of steps 3, 5, 8 and 10: one
`sim.apply_phase(i)` call followed by three `gates.append(('p', i, None))`
calls, exactly as in the source. -/
def phaseTriple (ops : SimOps) (i : Nat) (st : DecState) : DecState :=
  emit ('p', i, none) (emit ('p', i, none) (emit ('p', i, none) (simApplyP ops i st)))

/-- Loop of steps 3 and 8: a phase-correction site at every qubit `i` with
`L[i, i] = 1`, where `L = ((M @ M.T) - q) % 2` is computed once from the
quadrant `q` read at the start of the step. -/
def phaseStage (ops : SimOps) (n : Nat) (q M : BMat) (st : DecState) : DecState :=
  (List.range n).foldl
    (fun st i => if defectL q M n i i = 1 then phaseTriple ops i st else st) st

/-- Loop of steps 4 and 9: a CNOT for every strictly-lower-triangular 1 of
`M`, in increasing column order then increasing row order. -/
def cnotMStage (ops : SimOps) (n : Nat) (M : BMat) (st : DecState) : DecState :=
  (List.range n).foldl
    (fun st j => (List.range' (j + 1) (n - (j + 1))).foldl
      (fun st i => if M i j = 1 then emit ('c', i, some j) (simApplyC ops i j st) else st)
      st) st

/-- Loop of steps 5 and 10: a phase-correction site at every qubit. -/
def phaseAll (ops : SimOps) (n : Nat) (st : DecState) : DecState :=
  (List.range n).foldl (fun st i => phaseTriple ops i st) st

/-- Steps 3 and 4 (and, on the `b` quadrant, steps 8 and 9): factor the
quadrant `q` read fresh at the start, correct the diagonal defect with
phase sites, then sweep CNOTs over the strictly-lower entries of `M`. -/
def factorStages (ops : SimOps) (n : Nat) (q : BMat) (st : DecState) : DecState :=
  cnotMStage ops n (find_M q n) (phaseStage ops n q (find_M q n) st)

/-- Full run of `decompose_state` on a simulator holding the `2n × 2n`
tableau `s0`, following the twelve numbered steps of the source; quadrant
views are re-read from the current tableau at every stage. -/
def decomposeRun (ops : SimOps) (s0 : BMat) (n : Nat) : DecState :=
  let st1 := hadamardSweep ops
    (get_hadamard_steps (quadC s0 n) (quadD s0 n) n) ⟨s0, [], []⟩
  let st2 := cnotSweep ops
    (col_wise_gaussian_elimination_steps (quadC st1.state n) n) st1
  let st4 := factorStages ops n (quadD st2.state n) st2
  let st5 := phaseAll ops n st4
  let st6 := cnotSweep ops
    (col_wise_gaussian_elimination_steps (quadC st5.state n) n) st5
  let st7 := hadamardSweep ops (List.range n) st6
  let st9 := factorStages ops n (quadB st7.state n) st7
  let st10 := phaseAll ops n st9
  cnotSweep ops
    (col_wise_gaussian_elimination_steps (quadA st10.state) n) st10

/-- Translation of `decompose_state`: the accumulated gate list, reversed
(step 12). -/
def decompose_state (ops : SimOps) (s0 : BMat) (n : Nat) : List Gate :=
  (decomposeRun ops s0 n).gates.reverse

/-- Expansion describing how the accumulated list relates to the issued
applications: a logged Phase application stands for three appended records,
any other logged application for one. -/
def expandPhase (g : Gate) : List Gate :=
  if g.1 = 'p' then [g, g, g] else [g]

/-! ### Generic fold preservation -/

theorem foldl_preserve {β α : Type _} (P : β → Prop) (Q : α → Prop) (f : β → α → β) :
    ∀ (l : List α), (∀ x ∈ l, Q x) → (∀ st x, Q x → P st → P (f st x)) →
      ∀ st, P st → P (l.foldl f st) := by
  intro l
  induction l with
  | nil => intro _ _ st hst; exact hst
  | cons a l ih =>
    intro hl hf st hst
    exact ih (fun x hx => hl x (List.mem_cons_of_mem a hx)) hf (f st a)
      (hf st a (hl a (List.mem_cons_self a l)) hst)

/-! ### Claim C1: gate list versus simulator application log -/

/-- Invariant relating the accumulated gate list to the application log. -/
def GatesLog (st : DecState) : Prop :=
  st.gates = st.log.flatMap expandPhase

theorem gatesLog_emit_simApplyH (ops : SimOps) (i : Nat) (st : DecState)
    (h : GatesLog st) : GatesLog (emit ('h', i, none) (simApplyH ops i st)) := by
  unfold GatesLog emit simApplyH at *
  simp only [List.flatMap_append, h]
  rfl

theorem gatesLog_emit_simApplyC (ops : SimOps) (i j : Nat) (st : DecState)
    (h : GatesLog st) :
    GatesLog (emit ('c', i, some j) (simApplyC ops i j st)) := by
  unfold GatesLog emit simApplyC at *
  simp only [List.flatMap_append, h]
  rfl

theorem gatesLog_phaseTriple (ops : SimOps) (i : Nat) (st : DecState)
    (h : GatesLog st) : GatesLog (phaseTriple ops i st) := by
  unfold GatesLog phaseTriple emit simApplyP at *
  simp only [List.flatMap_append, h, List.append_assoc]
  rfl

theorem gatesLog_hadamardSweep (ops : SimOps) (steps : List Nat) (st : DecState)
    (h : GatesLog st) : GatesLog (hadamardSweep ops steps st) :=
  foldl_preserve GatesLog (fun _ => True) _ steps (fun _ _ => trivial)
    (fun st i _ hst => gatesLog_emit_simApplyH ops i st hst) st h

theorem gatesLog_cnotSweep (ops : SimOps) (steps : List (Nat × Nat)) (st : DecState)
    (h : GatesLog st) : GatesLog (cnotSweep ops steps st) :=
  foldl_preserve GatesLog (fun _ => True) _ steps (fun _ _ => trivial)
    (fun st p _ hst => gatesLog_emit_simApplyC ops p.1 p.2 st hst) st h

theorem gatesLog_phaseStage (ops : SimOps) (n : Nat) (q M : BMat) (st : DecState)
    (h : GatesLog st) : GatesLog (phaseStage ops n q M st) := by
  refine foldl_preserve GatesLog (fun _ => True) _ (List.range n) (fun _ _ => trivial)
    ?_ st h
  intro st i _ hst
  by_cases hL : defectL q M n i i = 1
  · simpa [hL] using gatesLog_phaseTriple ops i st hst
  · simpa [hL] using hst

theorem gatesLog_cnotMStage (ops : SimOps) (n : Nat) (M : BMat) (st : DecState)
    (h : GatesLog st) : GatesLog (cnotMStage ops n M st) := by
  refine foldl_preserve GatesLog (fun _ => True) _ (List.range n) (fun _ _ => trivial)
    ?_ st h
  intro st j _ hst
  refine foldl_preserve GatesLog (fun _ => True) _ _ (fun _ _ => trivial) ?_ st hst
  intro st i _ hst
  by_cases hM : M i j = 1
  · simpa [hM] using gatesLog_emit_simApplyC ops i j st hst
  · simpa [hM] using hst

theorem gatesLog_phaseAll (ops : SimOps) (n : Nat) (st : DecState)
    (h : GatesLog st) : GatesLog (phaseAll ops n st) :=
  foldl_preserve GatesLog (fun _ => True) _ (List.range n) (fun _ _ => trivial)
    (fun st i _ hst => gatesLog_phaseTriple ops i st hst) st h

theorem gatesLog_factorStages (ops : SimOps) (n : Nat) (q : BMat) (st : DecState)
    (h : GatesLog st) : GatesLog (factorStages ops n q st) :=
  gatesLog_cnotMStage ops n _ _ (gatesLog_phaseStage ops n q _ st h)

theorem flatMap_expandPhase_length (l : List Gate) :
    (l.flatMap expandPhase).length =
      l.length + 2 * l.countP (fun g => g.1 == 'p') := by
  induction l with
  | nil => rfl
  | cons g l ih =>
    rw [List.flatMap_cons, List.length_append, ih, List.countP_cons]
    unfold expandPhase
    by_cases hg : g.1 = 'p' <;> simp [hg] <;> omega

/-- C1 amended: in `decompose_state` the accumulated gate list is exactly
the simulator application log with each Phase application expanded into
three consecutive Phase records (every non-Phase application is appended
once, un-inverted and in application order, while each phase-correction
site issues `apply_phase` once and appends three records); consequently
the length of the accumulated list equals the number of simulator gate
applications plus twice the number of Phase applications. -/
theorem decompose_state_gates_eq_log_expanded (ops : SimOps) (s0 : BMat) (n : Nat) :
    (decomposeRun ops s0 n).gates =
      ((decomposeRun ops s0 n).log).flatMap expandPhase ∧
    (decomposeRun ops s0 n).gates.length =
      (decomposeRun ops s0 n).log.length +
        2 * (decomposeRun ops s0 n).log.countP (fun g => g.1 == 'p') := by
  have h : GatesLog (decomposeRun ops s0 n) := by
    unfold decomposeRun
    apply gatesLog_cnotSweep
    apply gatesLog_phaseAll
    apply gatesLog_factorStages
    apply gatesLog_hadamardSweep
    apply gatesLog_cnotSweep
    apply gatesLog_phaseAll
    apply gatesLog_factorStages
    apply gatesLog_cnotSweep
    apply gatesLog_hadamardSweep
    rfl
  exact ⟨h, by rw [h, flatMap_expandPhase_length]⟩

/-- Counterexample to C1 as stated: with a trivial simulator on the
one-qubit identity tableau, `decompose_state` issues 5 gate applications
to the simulator but accumulates 11 gate records, so the Phase gate is not
issued three times per phase-correction site and the number of simulator
gate applications differs from the length of the accumulated list. -/
theorem decompose_state_log_length_ne_gates_length :
    (decomposeRun ⟨fun _ s => s, fun _ _ s => s, fun _ s => s⟩ identityMat 1).log.length = 5 ∧
    (decomposeRun ⟨fun _ s => s, fun _ _ s => s, fun _ s => s⟩ identityMat 1).gates.length = 11 ∧
    (decomposeRun ⟨fun _ s => s, fun _ _ s => s, fun _ s => s⟩ identityMat 1).log.length ≠
      (decomposeRun ⟨fun _ s => s, fun _ _ s => s, fun _ s => s⟩ identityMat 1).gates.length := by
  refine ⟨by decide, by decide, by decide⟩

/-! ### Claim C10: recorded steps and CNOT records have distinct endpoints -/

/-- Invariant for the column elimination: all recorded steps so far have
distinct source and destination. -/
def StepsNe (st : ColElimState) : Prop :=
  ∀ p ∈ st.steps, p.1 ≠ p.2

theorem stepsNe_colFixPivot (n i : Nat) (st : ColElimState) (h : StepsNe st) :
    StepsNe (colFixPivot n i st) := by
  unfold colFixPivot
  by_cases hM : st.M i i ≠ 1
  · rw [if_pos hM]
    cases hfind : (List.range' (i + 1) (n - (i + 1))).find? (fun j => st.M i j == 1) with
    | none => exact h
    | some j =>
      have hj : j ∈ List.range' (i + 1) (n - (i + 1)) := List.mem_of_find?_eq_some hfind
      have hji : i + 1 ≤ j := (List.mem_range'_1.1 hj).1
      intro p hp
      rcases List.mem_append.1 hp with hp | hp
      · exact h p hp
      · rcases List.mem_singleton.1 hp with rfl
        simp only [ne_eq]
        omega
  · rw [if_neg hM]
    exact h

theorem stepsNe_colClearAt (i j : Nat) (hij : i ≠ j) (st : ColElimState)
    (h : StepsNe st) : StepsNe (colClearAt i st j) := by
  unfold colClearAt
  by_cases hM : st.M i j = 1
  · simp only [hM, if_true]
    intro p hp
    rcases List.mem_append.1 hp with hp | hp
    · exact h p hp
    · rcases List.mem_singleton.1 hp with rfl
      exact hij
  · simp only [hM, if_false]
    exact h

theorem stepsNe_colElimRun (A : BMat) (n : Nat) : StepsNe (colElimRun A n) := by
  unfold colElimRun
  have h1 : StepsNe ((List.range n).foldl (colPhase1Step n) ⟨A, []⟩) := by
    refine foldl_preserve StepsNe (fun _ => True) _ (List.range n) (fun _ _ => trivial)
      ?_ _ ?_
    · intro st i _ hst
      unfold colPhase1Step
      refine foldl_preserve StepsNe (fun j => i + 1 ≤ j) _ _ ?_ ?_ _
        (stepsNe_colFixPivot n i st hst)
      · intro j hj
        exact (List.mem_range'_1.1 hj).1
      · intro st j hj hst
        exact stepsNe_colClearAt i j (by omega) st hst
    · intro p hp
      cases hp
  refine foldl_preserve StepsNe (fun _ => True) _ _ (fun _ _ => trivial) ?_ _ h1
  intro st i _ hst
  unfold colPhase2Step
  refine foldl_preserve StepsNe (fun j => j < i) _ _ ?_ ?_ _ hst
  · intro j hj
    rw [List.mem_reverse] at hj
    exact List.mem_range.1 hj
  · intro st j hj hst
    exact stepsNe_colClearAt i j (by omega) st hst

/-- Invariant for `decompose_state`: every CNOT record accumulated so far
has distinct control and target. -/
def CnotOk (st : DecState) : Prop :=
  ∀ i j : Nat, ('c', i, some j) ∈ st.gates → i ≠ j

theorem cnotOk_emit_h (q : Nat) (st : DecState) (h : CnotOk st) :
    CnotOk ⟨st.state, st.gates ++ [('h', q, none)], st.log⟩ := by
  intro i j hmem
  rcases List.mem_append.1 hmem with hm | hm
  · exact h i j hm
  · rcases List.mem_singleton.1 hm with heq
    cases heq

theorem cnotOk_emit_p (q : Nat) (st : DecState) (h : CnotOk st) :
    CnotOk ⟨st.state, st.gates ++ [('p', q, none)], st.log⟩ := by
  intro i j hmem
  rcases List.mem_append.1 hmem with hm | hm
  · exact h i j hm
  · rcases List.mem_singleton.1 hm with heq
    cases heq

theorem cnotOk_emit_c (a b : Nat) (hab : a ≠ b) (st : DecState) (h : CnotOk st) :
    CnotOk ⟨st.state, st.gates ++ [('c', a, some b)], st.log⟩ := by
  intro i j hmem
  rcases List.mem_append.1 hmem with hm | hm
  · exact h i j hm
  · rcases List.mem_singleton.1 hm with heq
    have h1 : i = a ∧ j = b := by simpa using heq
    rcases h1 with ⟨rfl, rfl⟩
    exact hab

theorem cnotOk_hadamardSweep (ops : SimOps) (steps : List Nat) (st : DecState)
    (h : CnotOk st) : CnotOk (hadamardSweep ops steps st) :=
  foldl_preserve CnotOk (fun _ => True) _ steps (fun _ _ => trivial)
    (fun st i _ hst => cnotOk_emit_h i (simApplyH ops i st) hst) st h

theorem cnotOk_phaseTriple (ops : SimOps) (i : Nat) (st : DecState)
    (h : CnotOk st) : CnotOk (phaseTriple ops i st) := by
  unfold phaseTriple emit simApplyP
  exact cnotOk_emit_p i _ (cnotOk_emit_p i _ (cnotOk_emit_p i _ h))

theorem cnotOk_cnotSweep (ops : SimOps) (steps : List (Nat × Nat))
    (hsteps : ∀ p ∈ steps, p.1 ≠ p.2) (st : DecState) (h : CnotOk st) :
    CnotOk (cnotSweep ops steps st) :=
  foldl_preserve CnotOk (fun p : Nat × Nat => p.1 ≠ p.2) _ steps hsteps
    (fun st p hp hst => cnotOk_emit_c p.1 p.2 hp (simApplyC ops p.1 p.2 st) hst) st h

theorem cnotOk_phaseStage (ops : SimOps) (n : Nat) (q M : BMat) (st : DecState)
    (h : CnotOk st) : CnotOk (phaseStage ops n q M st) := by
  refine foldl_preserve CnotOk (fun _ => True) _ (List.range n) (fun _ _ => trivial)
    ?_ st h
  intro st i _ hst
  by_cases hL : defectL q M n i i = 1
  · simpa [hL] using cnotOk_phaseTriple ops i st hst
  · simpa [hL] using hst

theorem cnotOk_cnotMStage (ops : SimOps) (n : Nat) (M : BMat) (st : DecState)
    (h : CnotOk st) : CnotOk (cnotMStage ops n M st) := by
  refine foldl_preserve CnotOk (fun _ => True) _ (List.range n) (fun _ _ => trivial)
    ?_ st h
  intro st j _ hst
  refine foldl_preserve CnotOk (fun i => j + 1 ≤ i) _ _ ?_ ?_ st hst
  · intro i hi
    exact (List.mem_range'_1.1 hi).1
  · intro st i hi hst
    by_cases hM : M i j = 1
    · simpa [hM] using cnotOk_emit_c i j (by omega) (simApplyC ops i j st) hst
    · simpa [hM] using hst

theorem cnotOk_phaseAll (ops : SimOps) (n : Nat) (st : DecState)
    (h : CnotOk st) : CnotOk (phaseAll ops n st) :=
  foldl_preserve CnotOk (fun _ => True) _ (List.range n) (fun _ _ => trivial)
    (fun st i _ hst => cnotOk_phaseTriple ops i st hst) st h

/-- C10: every step `(s, t)` recorded by
`col_wise_gaussian_elimination_steps` has `s ≠ t`, and every CNOT record
`('c', i, j)` in the gate list returned by `decompose_state` has
control ≠ target. -/
theorem col_steps_and_decompose_cnots_ne :
    (∀ (A : BMat) (n : Nat), ∀ p ∈ col_wise_gaussian_elimination_steps A n, p.1 ≠ p.2) ∧
    (∀ (ops : SimOps) (s0 : BMat) (n i j : Nat),
        ('c', i, some j) ∈ decompose_state ops s0 n → i ≠ j) := by
  constructor
  · intro A n p hp
    exact stepsNe_colElimRun A n p hp
  · intro ops s0 n i j hmem
    rw [decompose_state, List.mem_reverse] at hmem
    have h : CnotOk (decomposeRun ops s0 n) := by
      unfold decomposeRun factorStages
      apply cnotOk_cnotSweep ops _ (fun p hp => stepsNe_colElimRun _ n p hp)
      apply cnotOk_phaseAll
      apply cnotOk_cnotMStage
      apply cnotOk_phaseStage
      apply cnotOk_hadamardSweep
      apply cnotOk_cnotSweep ops _ (fun p hp => stepsNe_colElimRun _ n p hp)
      apply cnotOk_phaseAll
      apply cnotOk_cnotMStage
      apply cnotOk_phaseStage
      apply cnotOk_cnotSweep ops _ (fun p hp => stepsNe_colElimRun _ n p hp)
      apply cnotOk_hadamardSweep
      intro i j hmem
      cases hmem
    exact h i j hmem

/-- Witness for `col_steps_and_decompose_cnots_ne` at a concrete matrix:
the recorded step `(1, 0)` of the elimination of `[[0,1],[1,0]]` has
distinct endpoints. -/
theorem col_steps_and_decompose_cnots_ne_witness :
    ((1, 0) ∈ col_wise_gaussian_elimination_steps
      (fun r c => if r + c = 1 then (1 : Int) else 0) 2) ∧ (1 : Nat) ≠ 0 :=
  ⟨by decide, col_steps_and_decompose_cnots_ne.1
    (fun r c => if r + c = 1 then (1 : Int) else 0) 2 (1, 0) (by decide)⟩

/-! ### Claim C3: `find_M` -/

/-- Inner loop of `find_M` for column `j`, filling rows `a, ..., a + b - 1`. -/
def findMInner (A : BMat) (j : Nat) (M : BMat) (a b : Nat) : BMat :=
  (List.range' a b).foldl (fun N i => findMSet A N j i) M

/-- Outer loop of `find_M` over a list of columns. -/
def findMOuter (A : BMat) (n : Nat) (M : BMat) (js : List Nat) : BMat :=
  js.foldl (fun N j => findMInner A j N (j + 1) (n - (j + 1))) M

theorem find_M_eq_outer (A : BMat) (n : Nat) :
    find_M A n = findMOuter A n identityMat (List.range n) := rfl

theorem findMSet_ne (A M : BMat) (j i r c : Nat) (h : ¬(r = i ∧ c = j)) :
    findMSet A M j i r c = M r c := by
  unfold findMSet
  rw [if_neg h]

theorem findMSet_eq (A M : BMat) (j i : Nat) :
    findMSet A M j i i j =
      (A i j - ((List.range j).map (fun k => M i k * M j k)).sum) % 2 := by
  unfold findMSet
  rw [if_pos ⟨rfl, rfl⟩]

theorem findMInner_unchanged (A : BMat) (j : Nat) :
    ∀ (b a : Nat) (M : BMat) (r c : Nat), (c ≠ j ∨ r < a) →
      findMInner A j M a b r c = M r c := by
  intro b
  induction b with
  | zero => intro a M r c _; rfl
  | succ b ih =>
    intro a M r c h
    have hr : List.range' a (b + 1) = a :: List.range' (a + 1) b := List.range'_succ a b 1
    unfold findMInner
    rw [hr, List.foldl_cons]
    have h2 : findMInner A j (findMSet A M j a) (a + 1) b r c = findMSet A M j a r c := by
      apply ih
      rcases h with h | h
      · exact Or.inl h
      · exact Or.inr (by omega)
    rw [show (List.range' (a + 1) b).foldl (fun N i => findMSet A N j i)
        (findMSet A M j a) = findMInner A j (findMSet A M j a) (a + 1) b from rfl]
    rw [h2]
    apply findMSet_ne
    rintro ⟨rfl, rfl⟩
    rcases h with h | h
    · exact h rfl
    · omega

theorem findMInner_value (A : BMat) (j : Nat) :
    ∀ (b a : Nat) (M : BMat) (i : Nat), j < a → a ≤ i → i < a + b →
      findMInner A j M a b i j =
        (A i j - ((List.range j).map (fun k => M i k * M j k)).sum) % 2 := by
  intro b
  induction b with
  | zero => intro a M i _ h1 h2; omega
  | succ b ih =>
    intro a M i hja hai hib
    have hr : List.range' a (b + 1) = a :: List.range' (a + 1) b := List.range'_succ a b 1
    unfold findMInner
    rw [hr, List.foldl_cons]
    rw [show (List.range' (a + 1) b).foldl (fun N i => findMSet A N j i)
        (findMSet A M j a) = findMInner A j (findMSet A M j a) (a + 1) b from rfl]
    by_cases hia : i = a
    · subst hia
      rw [findMInner_unchanged A j b (i + 1) _ i j (Or.inr (by omega))]
      exact findMSet_eq A M j i
    · rw [ih (a + 1) (findMSet A M j a) i (by omega) (by omega) (by omega)]
      have hsum : ((List.range j).map
            (fun k => findMSet A M j a i k * findMSet A M j a j k)).sum =
          ((List.range j).map (fun k => M i k * M j k)).sum := by
        apply congrArg
        apply List.map_congr_left
        intro k hk
        have hkj : k < j := List.mem_range.1 hk
        rw [findMSet_ne A M j a i k (by rintro ⟨-, rfl⟩; omega),
          findMSet_ne A M j a j k (by rintro ⟨rfl, -⟩; omega)]
      rw [hsum]

theorem findMOuter_unchanged (A : BMat) (n : Nat) :
    ∀ (js : List Nat) (M : BMat) (r c : Nat), (∀ j ∈ js, c ≠ j ∨ r ≤ j) →
      findMOuter A n M js r c = M r c := by
  intro js
  induction js with
  | nil => intro M r c _; rfl
  | cons j js ih =>
    intro M r c h
    unfold findMOuter
    rw [List.foldl_cons]
    rw [show js.foldl (fun N j => findMInner A j N (j + 1) (n - (j + 1)))
        (findMInner A j M (j + 1) (n - (j + 1))) =
        findMOuter A n (findMInner A j M (j + 1) (n - (j + 1))) js from rfl]
    rw [ih _ r c (fun x hx => h x (List.mem_cons_of_mem j hx))]
    apply findMInner_unchanged
    rcases h j (List.mem_cons_self j js) with h1 | h1
    · exact Or.inl h1
    · exact Or.inr (by omega)

theorem find_M_upper (A : BMat) (n : Nat) (r c : Nat) (hrc : r ≤ c) :
    find_M A n r c = identityMat r c := by
  rw [find_M_eq_outer]
  apply findMOuter_unchanged
  intro j _
  by_cases hcj : c = j
  · exact Or.inr (by omega)
  · exact Or.inl hcj

/-- Split of the outer column list of `find_M` at column `j < n`. -/
theorem range_split_at (j n : Nat) (hj : j < n) :
    List.range n = List.range j ++ (j :: List.range' (j + 1) (n - (j + 1))) := by
  have h1 : List.range n = List.range' 0 n := List.range_eq_range' n
  have h2 : List.range j = List.range' 0 j := List.range_eq_range' j
  have h3 := List.range'_append 0 j (n - j) 1
  rw [one_mul] at h3
  have h4 : List.range' j (n - j) = j :: List.range' (j + 1) (n - (j + 1)) := by
    have h5 : n - j = (n - (j + 1)) + 1 := by omega
    rw [h5]
    exact List.range'_succ j (n - (j + 1)) 1
  rw [h1, h2, ← h4]
  rw [Nat.zero_add j] at h3
  rw [h3]
  congr 1
  omega

theorem find_M_lower (A : BMat) (n : Nat) (i j : Nat) (hji : j < i) (hin : i < n) :
    find_M A n i j =
      (A i j - ((List.range j).map
        (fun k => find_M A n i k * find_M A n j k)).sum) % 2 := by
  have hjn : j < n := by omega
  have hsplit := range_split_at j n hjn
  have hfoldsplit : find_M A n =
      findMOuter A n
        (findMInner A j (findMOuter A n identityMat (List.range j)) (j + 1) (n - (j + 1)))
        (List.range' (j + 1) (n - (j + 1))) := by
    rw [find_M_eq_outer, hsplit]
    unfold findMOuter
    rw [List.foldl_append, List.foldl_cons]
  set Mj := findMOuter A n identityMat (List.range j) with hMj
  have hlater : ∀ r c, c ≤ j → find_M A n r c = findMInner A j Mj (j + 1) (n - (j + 1)) r c := by
    intro r c hc
    rw [hfoldsplit]
    apply findMOuter_unchanged
    intro x hx
    have hxr := (List.mem_range'_1.1 hx).1
    exact Or.inl (by omega)
  have hcols : ∀ r c, c < j → find_M A n r c = Mj r c := by
    intro r c hc
    rw [hlater r c (by omega)]
    exact findMInner_unchanged A j _ _ Mj r c (Or.inl (by omega))
  rw [hlater i j (le_refl j)]
  rw [findMInner_value A j (n - (j + 1)) (j + 1) Mj i (by omega) (by omega) (by omega)]
  congr 2
  apply congrArg
  apply List.map_congr_left
  intro k hk
  have hkj : k < j := List.mem_range.1 hk
  rw [hcols i k hkj, hcols j k hkj]

theorem emod_sub_self_emod (x : Int) : ((x % 2) - x) % 2 = 0 := by
  rw [Int.sub_emod (x % 2) x 2, Int.emod_emod_of_dvd x dvd_rfl, sub_self]
  rfl

theorem defectL_offdiag_eq_zero (A : BMat) (n : Nat)
    (hsym : ∀ i < n, ∀ j < n, A i j = A j i) :
    ∀ i < n, ∀ j < n, i ≠ j → defectL A (find_M A n) n i j = 0 := by
  have key : ∀ i j, j < i → i < n → defectL A (find_M A n) n i j = 0 := by
    intro i j hji hin
    unfold defectL
    set M := find_M A n with hM
    have hjn : j < n := by omega
    have hsplit := range_split_at j n hjn
    have hsum : ((List.range n).map (fun k => M i k * M j k)).sum =
        ((List.range j).map (fun k => M i k * M j k)).sum + M i j := by
      rw [hsplit, List.map_append, List.sum_append, List.map_cons, List.sum_cons]
      have hMjj : M j j = 1 := by
        rw [hM, find_M_upper A n j j (le_refl j)]
        unfold identityMat
        rw [if_pos rfl]
      have htail : ((List.range' (j + 1) (n - (j + 1))).map
          (fun k => M i k * M j k)).sum = 0 := by
        apply List.sum_eq_zero
        intro x hx
        obtain ⟨k, hk, rfl⟩ := List.mem_map.1 hx
        have hkj : j + 1 ≤ k := (List.mem_range'_1.1 hk).1
        have hMjk : M j k = 0 := by
          rw [hM, find_M_upper A n j k (by omega)]
          unfold identityMat
          rw [if_neg (by omega)]
        rw [hMjk, mul_zero]
      rw [htail, hMjj, mul_one]
      ring
    rw [hsum]
    have hMij : M i j = (A i j - ((List.range j).map (fun k => M i k * M j k)).sum) % 2 :=
      find_M_lower A n i j hji hin
    rw [hMij]
    set S := ((List.range j).map (fun k => M i k * M j k)).sum with hS
    have harith : S + (A i j - S) % 2 - A i j = ((A i j - S) % 2) - (A i j - S) := by ring
    rw [harith]
    exact emod_sub_self_emod (A i j - S)
  intro i hin j hjn hij
  rcases Nat.lt_or_ge j i with h | h
  · exact key i j h hin
  · have hji : i < j := by omega
    have hswap : defectL A (find_M A n) n i j = defectL A (find_M A n) n j i := by
      unfold defectL
      rw [hsym i hin j hjn]
      congr 2
      apply congrArg
      apply List.map_congr_left
      intro k _
      rw [mul_comm]
    rw [hswap]
    exact key j i hji hjn

/-- C3: for every symmetric `n × n` binary matrix `A`, `find_M(A)` is
lower-unitriangular (unit diagonal, zeros above the diagonal), its
below-diagonal entries satisfy the recurrence
`M[i,j] = (A[i,j] - Σ_{k<j} M[i,k]·M[j,k]) mod 2`, and the residual
`L = (M·Mᵀ − A) mod 2` vanishes off the diagonal, i.e. is diagonal. -/
theorem find_M_spec (A : BMat) (n : Nat)
    (hsym : ∀ i < n, ∀ j < n, A i j = A j i) (hbin : IsBinary A n n) :
    (∀ i < n, find_M A n i i = 1) ∧
    (∀ i j : Nat, i < j → j < n → find_M A n i j = 0) ∧
    (∀ i j : Nat, j < i → i < n → find_M A n i j =
      (A i j - ((List.range j).map
        (fun k => find_M A n i k * find_M A n j k)).sum) % 2) ∧
    (∀ i < n, ∀ j < n, i ≠ j → defectL A (find_M A n) n i j = 0) := by
  refine ⟨?_, ?_, ?_, defectL_offdiag_eq_zero A n hsym⟩
  · intro i _
    rw [find_M_upper A n i i (le_refl i)]
    unfold identityMat
    rw [if_pos rfl]
  · intro i j hij _
    rw [find_M_upper A n i j (by omega)]
    unfold identityMat
    rw [if_neg (by omega)]
  · intro i j hji hin
    exact find_M_lower A n i j hji hin

/-- Witness for `find_M_spec` on the symmetric binary matrix
`[[0,1],[1,0]]`: its factor is `[[1,0],[1,1]]` and the residual defect is
diagonal. -/
theorem find_M_spec_witness :
    (find_M (fun r c => if r + c = 1 then (1 : Int) else 0) 2 1 1 = 1) ∧
    (find_M (fun r c => if r + c = 1 then (1 : Int) else 0) 2 0 1 = 0) ∧
    (find_M (fun r c => if r + c = 1 then (1 : Int) else 0) 2 1 0 = 1) ∧
    defectL (fun r c => if r + c = 1 then (1 : Int) else 0)
      (find_M (fun r c => if r + c = 1 then (1 : Int) else 0) 2) 2 1 0 = 0 := by
  have h := find_M_spec (fun r c => if r + c = 1 then (1 : Int) else 0) 2
    (by decide) (by decide)
  refine ⟨h.1 1 (by decide), h.2.1 0 1 (by decide) (by decide), ?_, ?_⟩
  · rw [h.2.2.1 1 0 (by decide) (by decide)]
    decide
  · exact h.2.2.2 1 (by decide) 0 (by decide) (by decide)

/-! ### Claim C5: `get_hadamard_steps` -/

/-- C5 amended: `get_hadamard_steps(c, d)` returns exactly the indices
`j − n` of the discovered pivots of the row reduction of the concatenation
`[c | d]` whose column lies in the right (`d`) half: the returned list is
the filtered, shifted pivot-column list, and `i` is returned iff some pivot
`(r, n + i)` was discovered. -/
theorem get_hadamard_steps_exactly_right_pivots :
    (∀ (c d : BMat) (n : Nat),
      get_hadamard_steps c d n =
        ((row_wise_gaussian_elimination_pivots (hstack c d n) n (2 * n)).filter
          (fun p => decide (n ≤ p.2))).map (fun p => p.2 - n)) ∧
    (∀ (c d : BMat) (n i : Nat),
      i ∈ get_hadamard_steps c d n ↔
        ∃ r, (r, n + i) ∈ row_wise_gaussian_elimination_pivots (hstack c d n) n (2 * n)) := by
  refine ⟨fun _ _ _ => rfl, ?_⟩
  intro c d n i
  unfold get_hadamard_steps
  constructor
  · intro h
    obtain ⟨p, hp, hpi⟩ := List.mem_map.1 h
    obtain ⟨hpl, hpn⟩ := List.mem_filter.1 hp
    have hn : n ≤ p.2 := of_decide_eq_true hpn
    refine ⟨p.1, ?_⟩
    have hp2 : p.2 = n + i := by omega
    have hpe : (p.1, n + i) = p := by
      rw [← hp2]
    rw [hpe]
    exact hpl
  · rintro ⟨r, hr⟩
    apply List.mem_map.2
    refine ⟨(r, n + i), ?_, by simp⟩
    apply List.mem_filter.2
    refine ⟨hr, ?_⟩
    simp

/-- Witness for `get_hadamard_steps_exactly_right_pivots`: on
`c = [[1,0],[0,0]]`, `d = [[0,1],[1,0]]` the pivot `(1, 2)` lies in the
right half, so qubit `0` is selected. -/
theorem get_hadamard_steps_exactly_right_pivots_witness :
    0 ∈ get_hadamard_steps (fun r c => if r = 0 ∧ c = 0 then (1 : Int) else 0)
      (fun r c => if r + c = 1 then (1 : Int) else 0) 2 :=
  (get_hadamard_steps_exactly_right_pivots.2
    (fun r c => if r = 0 ∧ c = 0 then (1 : Int) else 0)
    (fun r c => if r + c = 1 then (1 : Int) else 0) 2 0).2 ⟨1, by decide⟩

/-- Counterexample to C5 as stated: for `c = [[1,0],[0,0]]`,
`d = [[0,1],[1,0]]` the concatenation `[c | d]` has GF(2) rank 2 (its rows
are independent), `get_hadamard_steps` returns `[0]`, yet replacing column
0 of `c` by column 0 of `d` leaves the singular matrix `[[0,0],[1,0]]` —
the claimed full-rank consequence fails for general full-rank inputs. -/
theorem get_hadamard_steps_not_full_rank :
    RowsIndep (hstack (fun r c => if r = 0 ∧ c = 0 then (1 : Int) else 0)
      (fun r c => if r + c = 1 then (1 : Int) else 0) 2) 2 4 ∧
    get_hadamard_steps (fun r c => if r = 0 ∧ c = 0 then (1 : Int) else 0)
      (fun r c => if r + c = 1 then (1 : Int) else 0) 2 = [0] ∧
    ¬ RowsIndep (hadamardApplied (fun r c => if r = 0 ∧ c = 0 then (1 : Int) else 0)
      (fun r c => if r + c = 1 then (1 : Int) else 0)
      (get_hadamard_steps (fun r c => if r = 0 ∧ c = 0 then (1 : Int) else 0)
        (fun r c => if r + c = 1 then (1 : Int) else 0) 2)) 2 2 := by
  refine ⟨by decide, by decide, by decide⟩

/-! ### Claim C9: the kernels do not modify their input arrays

To state the frame property we re-translate the four kernel routines at the
level of numpy's array store: a heap maps array identifiers to matrix
contents, `np.copy` / `np.hstack` / `np.identity` allocate a fresh
identifier, and every in-place slice assignment of the source becomes an
update of the array identifier it targets. -/

/-- Store of numpy arrays: contents per identifier, plus the next fresh
identifier. -/
structure Heap where
  mem : Nat → BMat
  next : Nat

/-- Allocation of a fresh array holding `v` (`np.copy`, `np.hstack`,
`np.identity`): returns the new heap and the fresh identifier. -/
def halloc (h : Heap) (v : BMat) : Heap × Nat :=
  (⟨fun a => if a = h.next then v else h.mem a, h.next + 1⟩, h.next)

/-- In-place mutation of the array stored at identifier `a`. -/
def hmodify (h : Heap) (a : Nat) (f : BMat → BMat) : Heap :=
  ⟨fun x => if x = a then f (h.mem x) else h.mem x, h.next⟩

theorem hmodify_mem_ne (h : Heap) (a b : Nat) (f : BMat → BMat) (hne : b ≠ a) :
    (hmodify h a f).mem b = h.mem b := by
  unfold hmodify
  simp only
  rw [if_neg hne]

theorem hmodify_next (h : Heap) (a : Nat) (f : BMat → BMat) :
    (hmodify h a f).next = h.next := rfl

/-- Heap-level pivot search of `row_wise_gaussian_elimination_pivots`,
mutating the working array `mId` in place. -/
def rowFindPivotH (n k j mId : Nat) (h : Heap) : Heap × Bool :=
  if h.mem mId k j = 1 then (h, true)
  else
    match (List.range' (k + 1) (n - (k + 1))).find? (fun i => h.mem mId i j == 1) with
    | some i => (hmodify h mId (fun M => addRowInto M i k), true)
    | none => (h, false)

/-- Heap-level elimination below a pivot. -/
def rowElimBelowH (n k j mId : Nat) (h : Heap) : Heap :=
  (List.range' (k + 1) (n - (k + 1))).foldl
    (fun hh i => if hh.mem mId i j = 1 then hmodify hh mId (fun M => addRowInto M k i) else hh) h

/-- Heap-level main-loop body of `row_wise_gaussian_elimination_pivots`. -/
def rowStepH (n mId : Nat) (st : Heap × Nat × List (Nat × Nat)) (j : Nat) :
    Heap × Nat × List (Nat × Nat) :=
  if st.2.1 = n then st
  else
    match rowFindPivotH n st.2.1 j mId st.1 with
    | (h1, true) =>
      (rowElimBelowH n st.2.1 j mId h1, st.2.1 + 1, st.2.2 ++ [(st.2.1, j)])
    | (h1, false) => (h1, st.2.1, st.2.2)

/-- Heap-level `row_wise_gaussian_elimination_pivots(A)`: copies the array
at `aId` (`M = np.copy(A)`), eliminates in place on the copy, and returns
the final heap with the pivot list. -/
def row_wise_pivots_heap (h : Heap) (aId n m : Nat) : Heap × List (Nat × Nat) :=
  let p := halloc h (h.mem aId)
  let r := (List.range m).foldl (rowStepH n p.2) (p.1, 0, [])
  (r.1, r.2.2)

/-- Heap-level pivot fix of `col_wise_gaussian_elimination_steps`. -/
def colFixPivotH (n i mId : Nat) (st : Heap × List (Nat × Nat)) : Heap × List (Nat × Nat) :=
  if st.1.mem mId i i ≠ 1 then
    match (List.range' (i + 1) (n - (i + 1))).find? (fun j => st.1.mem mId i j == 1) with
    | some j => (hmodify st.1 mId (fun M => addColInto M j i), st.2 ++ [(j, i)])
    | none => st
  else st

/-- Heap-level clearing step of `col_wise_gaussian_elimination_steps`. -/
def colClearAtH (i mId : Nat) (st : Heap × List (Nat × Nat)) (j : Nat) :
    Heap × List (Nat × Nat) :=
  if st.1.mem mId i j = 1 then
    (hmodify st.1 mId (fun M => addColInto M i j), st.2 ++ [(i, j)])
  else st

/-- Heap-level `col_wise_gaussian_elimination_steps(A)`: copies the array
at `aId` and performs both phases in place on the copy. -/
def col_wise_steps_heap (h : Heap) (aId n : Nat) : Heap × List (Nat × Nat) :=
  let p := halloc h (h.mem aId)
  let st1 := (List.range n).foldl
    (fun st i => (List.range' (i + 1) (n - (i + 1))).foldl (colClearAtH i p.2)
      (colFixPivotH n i p.2 st)) (p.1, [])
  ((List.range n).reverse).foldl
    (fun st i => ((List.range i).reverse).foldl (colClearAtH i p.2) st) st1

/-- Heap-level `find_M(A)`: allocates `M = np.identity(n)` and fills its
strictly-lower entries in place, reading `A` from the heap at `aId`. -/
def find_M_heap (h : Heap) (aId n : Nat) : Heap × Nat :=
  let p := halloc h identityMat
  ((List.range n).foldl
    (fun hh j => (List.range' (j + 1) (n - (j + 1))).foldl
      (fun hh2 i => hmodify hh2 p.2 (fun M => findMSet (hh2.mem aId) M j i)) hh) p.1,
   p.2)

/-- Heap-level `get_hadamard_steps(c, d)`: `M = np.hstack((c, d))`
allocates a fresh array, which the row reduction then copies again. -/
def get_hadamard_steps_heap (h : Heap) (cId dId n : Nat) : Heap × List Nat :=
  let p := halloc h (hstack (h.mem cId) (h.mem dId) n)
  let r := row_wise_pivots_heap p.1 p.2 n (2 * n)
  (r.1, (r.2.filter (fun q => decide (n ≤ q.2))).map (fun q => q.2 - n))

/-! Frame lemmas: every write of each heap-level routine targets the
freshly allocated working array, so all other arrays are preserved. -/

theorem rowFindPivotH_frame (n k j mId : Nat) (h : Heap) (b : Nat) (hb : b ≠ mId) :
    (rowFindPivotH n k j mId h).1.mem b = h.mem b ∧
    (rowFindPivotH n k j mId h).1.next = h.next := by
  unfold rowFindPivotH
  by_cases h1 : h.mem mId k j = 1
  · rw [if_pos h1]
    exact ⟨rfl, rfl⟩
  · rw [if_neg h1]
    cases hfind : (List.range' (k + 1) (n - (k + 1))).find? (fun i => h.mem mId i j == 1) with
    | none => exact ⟨rfl, rfl⟩
    | some i =>
      exact ⟨hmodify_mem_ne h mId b (fun M => addRowInto M i k) hb, rfl⟩

theorem rowElimBelowH_frame (n k j mId : Nat) (h : Heap) (b : Nat) (hb : b ≠ mId) :
    (rowElimBelowH n k j mId h).mem b = h.mem b ∧
    (rowElimBelowH n k j mId h).next = h.next := by
  unfold rowElimBelowH
  refine foldl_preserve (fun hh => hh.mem b = h.mem b ∧ hh.next = h.next)
    (fun _ => True) _ _ (fun _ _ => trivial) ?_ h ⟨rfl, rfl⟩
  intro hh i _ hst
  by_cases h1 : hh.mem mId i j = 1
  · rw [if_pos h1]
    exact ⟨(hmodify_mem_ne hh mId b _ hb).trans hst.1, hst.2⟩
  · rw [if_neg h1]
    exact hst

theorem rowElimFoldH_frame (n mId m : Nat) (st0 : Heap × Nat × List (Nat × Nat))
    (b : Nat) (hb : b ≠ mId) :
    ((List.range m).foldl (rowStepH n mId) st0).1.mem b = st0.1.mem b ∧
    ((List.range m).foldl (rowStepH n mId) st0).1.next = st0.1.next := by
  refine foldl_preserve
    (fun st => st.1.mem b = st0.1.mem b ∧ st.1.next = st0.1.next)
    (fun _ => True) _ _ (fun _ _ => trivial) ?_ st0 ⟨rfl, rfl⟩
  intro st j _ hst
  unfold rowStepH
  by_cases h1 : st.2.1 = n
  · rw [if_pos h1]
    exact hst
  · rw [if_neg h1]
    have hfind := rowFindPivotH_frame n st.2.1 j mId st.1 b hb
    cases hp : rowFindPivotH n st.2.1 j mId st.1 with
    | mk h2 found =>
      rw [hp] at hfind
      cases found with
      | true =>
        have helim := rowElimBelowH_frame n st.2.1 j mId h2 b hb
        exact ⟨helim.1.trans (hfind.1.trans hst.1), helim.2.trans (hfind.2.trans hst.2)⟩
      | false =>
        exact ⟨hfind.1.trans hst.1, hfind.2.trans hst.2⟩

theorem row_wise_pivots_heap_frame (h : Heap) (aId n m b : Nat) (hb : b < h.next) :
    (row_wise_pivots_heap h aId n m).1.mem b = h.mem b := by
  unfold row_wise_pivots_heap halloc
  have hfold := rowElimFoldH_frame n h.next m
    (⟨fun a => if a = h.next then h.mem aId else h.mem a, h.next + 1⟩, 0, []) b (by omega)
  refine hfold.1.trans ?_
  simp only
  rw [if_neg (by omega)]

theorem colClearAtH_frame (i mId j b : Nat) (hb : b ≠ mId)
    (st : Heap × List (Nat × Nat)) :
    (colClearAtH i mId st j).1.mem b = st.1.mem b ∧
    (colClearAtH i mId st j).1.next = st.1.next := by
  unfold colClearAtH
  by_cases h1 : st.1.mem mId i j = 1
  · rw [if_pos h1]
    exact ⟨hmodify_mem_ne st.1 mId b (fun M => addColInto M i j) hb, rfl⟩
  · rw [if_neg h1]
    exact ⟨rfl, rfl⟩

theorem colFixPivotH_frame (n i mId b : Nat) (hb : b ≠ mId)
    (st : Heap × List (Nat × Nat)) :
    (colFixPivotH n i mId st).1.mem b = st.1.mem b ∧
    (colFixPivotH n i mId st).1.next = st.1.next := by
  unfold colFixPivotH
  by_cases h1 : st.1.mem mId i i ≠ 1
  · rw [if_pos h1]
    cases hfind : (List.range' (i + 1) (n - (i + 1))).find?
        (fun j => st.1.mem mId i j == 1) with
    | none => exact ⟨rfl, rfl⟩
    | some j =>
      exact ⟨hmodify_mem_ne st.1 mId b (fun M => addColInto M j i) hb, rfl⟩
  · rw [if_neg h1]
    exact ⟨rfl, rfl⟩

theorem col_wise_steps_heap_frame (h : Heap) (aId n b : Nat) (hb : b < h.next) :
    (col_wise_steps_heap h aId n).1.mem b = h.mem b := by
  unfold col_wise_steps_heap halloc
  simp only
  set h1 : Heap := ⟨fun a => if a = h.next then h.mem aId else h.mem a, h.next + 1⟩ with hh1
  have hbne : b ≠ h.next := by omega
  have P1 : ∀ (st : Heap × List (Nat × Nat)),
      st.1.mem b = h1.mem b ∧ st.1.next = h1.next →
      ∀ i, ((List.range' (i + 1) (n - (i + 1))).foldl (colClearAtH i h.next)
        (colFixPivotH n i h.next st)).1.mem b = h1.mem b ∧
      ((List.range' (i + 1) (n - (i + 1))).foldl (colClearAtH i h.next)
        (colFixPivotH n i h.next st)).1.next = h1.next := by
    intro st hst i
    refine foldl_preserve
      (fun st2 : Heap × List (Nat × Nat) => st2.1.mem b = h1.mem b ∧ st2.1.next = h1.next)
      (fun _ => True) _ _ (fun _ _ => trivial) ?_ _ ?_
    · intro st2 j _ hst2
      have hc := colClearAtH_frame i h.next j b hbne st2
      exact ⟨hc.1.trans hst2.1, hc.2.trans hst2.2⟩
    · have hf := colFixPivotH_frame n i h.next b hbne st
      exact ⟨hf.1.trans hst.1, hf.2.trans hst.2⟩
  have hst1 : ((List.range n).foldl
      (fun st i => (List.range' (i + 1) (n - (i + 1))).foldl (colClearAtH i h.next)
        (colFixPivotH n i h.next st)) (h1, [])).1.mem b = h1.mem b ∧
      ((List.range n).foldl
      (fun st i => (List.range' (i + 1) (n - (i + 1))).foldl (colClearAtH i h.next)
        (colFixPivotH n i h.next st)) (h1, [])).1.next = h1.next := by
    refine foldl_preserve
      (fun st : Heap × List (Nat × Nat) => st.1.mem b = h1.mem b ∧ st.1.next = h1.next)
      (fun _ => True) _ _ (fun _ _ => trivial) ?_ _ ⟨rfl, rfl⟩
    intro st i _ hst
    exact P1 st hst i
  have hst2 : (((List.range n).reverse).foldl
      (fun st i => ((List.range i).reverse).foldl (colClearAtH i h.next) st)
      ((List.range n).foldl
        (fun st i => (List.range' (i + 1) (n - (i + 1))).foldl (colClearAtH i h.next)
          (colFixPivotH n i h.next st)) (h1, []))).1.mem b = h1.mem b := by
    have := foldl_preserve
      (fun st : Heap × List (Nat × Nat) => st.1.mem b = h1.mem b ∧ st.1.next = h1.next)
      (fun _ => True) (fun st i => ((List.range i).reverse).foldl (colClearAtH i h.next) st)
      ((List.range n).reverse) (fun _ _ => trivial) ?_ _ hst1
    · exact this.1
    · intro st i _ hst
      refine foldl_preserve
        (fun st2 : Heap × List (Nat × Nat) => st2.1.mem b = h1.mem b ∧ st2.1.next = h1.next)
        (fun _ => True) _ _ (fun _ _ => trivial) ?_ _ hst
      intro st2 j _ hst2
      have hc := colClearAtH_frame i h.next j b hbne st2
      exact ⟨hc.1.trans hst2.1, hc.2.trans hst2.2⟩
  refine hst2.trans ?_
  rw [hh1]
  simp only
  rw [if_neg hbne]

theorem find_M_heap_frame (h : Heap) (aId n b : Nat) (hb : b < h.next) :
    (find_M_heap h aId n).1.mem b = h.mem b := by
  unfold find_M_heap halloc
  simp only
  set h1 : Heap := ⟨fun a => if a = h.next then identityMat else h.mem a, h.next + 1⟩ with hh1
  have hbne : b ≠ h.next := by omega
  have hfold : ((List.range n).foldl
      (fun hh j => (List.range' (j + 1) (n - (j + 1))).foldl
        (fun hh2 i => hmodify hh2 h.next (fun M => findMSet (hh2.mem aId) M j i)) hh)
      h1).mem b = h1.mem b := by
    refine (foldl_preserve (fun hh : Heap => hh.mem b = h1.mem b)
      (fun _ => True) _ _ (fun _ _ => trivial) ?_ _ rfl)
    intro hh j _ hst
    refine (foldl_preserve (fun hh2 : Heap => hh2.mem b = h1.mem b)
      (fun _ => True) _ _ (fun _ _ => trivial) ?_ _ hst)
    intro hh2 i _ hst2
    exact (hmodify_mem_ne hh2 h.next b _ hbne).trans hst2
  refine hfold.trans ?_
  rw [hh1]
  simp only
  rw [if_neg hbne]

theorem get_hadamard_steps_heap_frame (h : Heap) (cId dId n b : Nat) (hb : b < h.next) :
    (get_hadamard_steps_heap h cId dId n).1.mem b = h.mem b := by
  unfold get_hadamard_steps_heap halloc
  simp only
  set h1 : Heap := ⟨fun a => if a = h.next then hstack (h.mem cId) (h.mem dId) n
    else h.mem a, h.next + 1⟩ with hh1
  have hrow := row_wise_pivots_heap_frame h1 h.next n (2 * n) b
    (show b < h.next + 1 by omega)
  refine hrow.trans ?_
  rw [hh1]
  simp only
  rw [if_neg (by omega)]

/-- C9: none of `row_wise_gaussian_elimination_pivots`,
`col_wise_gaussian_elimination_steps`, `find_M` and `get_hadamard_steps`
modifies its input array: each eliminates on a freshly allocated private
copy, so in the heap-level translation every stored input array is
entry-for-entry unchanged by the call. -/
theorem kernels_do_not_modify_inputs :
    (∀ (h : Heap) (aId n m : Nat), aId < h.next → ∀ r c : Nat,
      (row_wise_pivots_heap h aId n m).1.mem aId r c = h.mem aId r c) ∧
    (∀ (h : Heap) (aId n : Nat), aId < h.next → ∀ r c : Nat,
      (col_wise_steps_heap h aId n).1.mem aId r c = h.mem aId r c) ∧
    (∀ (h : Heap) (aId n : Nat), aId < h.next → ∀ r c : Nat,
      (find_M_heap h aId n).1.mem aId r c = h.mem aId r c) ∧
    (∀ (h : Heap) (cId dId n : Nat), cId < h.next → dId < h.next → ∀ r c : Nat,
      (get_hadamard_steps_heap h cId dId n).1.mem cId r c = h.mem cId r c ∧
      (get_hadamard_steps_heap h cId dId n).1.mem dId r c = h.mem dId r c) := by
  refine ⟨?_, ?_, ?_, ?_⟩
  · intro h aId n m ha r c
    rw [row_wise_pivots_heap_frame h aId n m aId ha]
  · intro h aId n ha r c
    rw [col_wise_steps_heap_frame h aId n aId ha]
  · intro h aId n ha r c
    rw [find_M_heap_frame h aId n aId ha]
  · intro h cId dId n hc hd r c
    exact ⟨by rw [get_hadamard_steps_heap_frame h cId dId n cId hc],
      by rw [get_hadamard_steps_heap_frame h cId dId n dId hd]⟩

/-- Witness for `kernels_do_not_modify_inputs` on a one-array heap. -/
theorem kernels_do_not_modify_inputs_witness :
    (row_wise_pivots_heap ⟨fun _ => identityMat, 1⟩ 0 1 1).1.mem 0 0 0 =
      Heap.mem ⟨fun _ => identityMat, 1⟩ 0 0 0 ∧
    (col_wise_steps_heap ⟨fun _ => identityMat, 1⟩ 0 1).1.mem 0 0 0 =
      Heap.mem ⟨fun _ => identityMat, 1⟩ 0 0 0 ∧
    (find_M_heap ⟨fun _ => identityMat, 1⟩ 0 1).1.mem 0 0 0 =
      Heap.mem ⟨fun _ => identityMat, 1⟩ 0 0 0 ∧
    (get_hadamard_steps_heap ⟨fun _ => identityMat, 1⟩ 0 0 1).1.mem 0 0 0 =
      Heap.mem ⟨fun _ => identityMat, 1⟩ 0 0 0 :=
  ⟨kernels_do_not_modify_inputs.1 ⟨fun _ => identityMat, 1⟩ 0 1 1 (by decide) 0 0,
   kernels_do_not_modify_inputs.2.1 ⟨fun _ => identityMat, 1⟩ 0 1 (by decide) 0 0,
   kernels_do_not_modify_inputs.2.2.1 ⟨fun _ => identityMat, 1⟩ 0 1 (by decide) 0 0,
   (kernels_do_not_modify_inputs.2.2.2 ⟨fun _ => identityMat, 1⟩ 0 0 1
     (by decide) (by decide) 0 0).1⟩

/-! ### Claim C2: column elimination reaches the identity

The proof keeps four invariants along the elimination: entries stay binary,
the rows stay linearly independent over GF(2) (each recorded step is an
invertible column operation), the already-processed top rows are
lower-unitriangular after phase 1, and the already-processed bottom rows
are identity rows during phase 2. -/

theorem rowsIndep_iff (A : BMat) (n m : Nat) :
    RowsIndep A n m ↔
      ∀ cv : Nat → ZMod 2,
        (∀ j < m, ∑ i in Finset.range n, cv i * z2 (A i j) = 0) →
        ∀ i < n, cv i = 0 := by
  constructor
  · intro h cv hcv i hi
    have h0 : (fun i : Fin n => cv i.1) = 0 := by
      apply h
      intro j
      rw [show (∑ i : Fin n, cv i.1 * z2 (A i.1 j.1)) =
          ∑ i in Finset.range n, cv i * z2 (A i j.1) from
        Fin.sum_univ_eq_sum_range (fun r => cv r * z2 (A r j.1)) n]
      exact hcv j.1 j.2
    have := congrFun h0 ⟨i, hi⟩
    simpa using this
  · intro h cv hcv
    have hN : ∀ i < n, (fun r => if hr : r < n then cv ⟨r, hr⟩ else 0) i = 0 := by
      apply h
      intro j hj
      rw [← Fin.sum_univ_eq_sum_range
        (fun r => (if hr : r < n then cv ⟨r, hr⟩ else 0) * z2 (A r j)) n]
      have hcongr : ∀ i : Fin n,
          (if hr : i.1 < n then cv ⟨i.1, hr⟩ else 0) * z2 (A i.1 j) =
          cv i * z2 (A i.1 j) := by
        intro i
        rw [dif_pos i.2]
      rw [Finset.sum_congr rfl (fun i _ => hcongr i)]
      exact hcv ⟨j, hj⟩
    funext i
    have h2 : (if hr : i.1 < n then cv ⟨i.1, hr⟩ else 0) = 0 := hN i.1 i.2
    rw [dif_pos i.2] at h2
    simpa using h2

theorem addColInto_apply (M : BMat) (s t r c : Nat) :
    addColInto M s t r c = if c = t then (M r t + M r s) % 2 else M r c := rfl

theorem addColInto_isBinary (M : BMat) (n s t : Nat) (h : IsBinary M n n) :
    IsBinary (addColInto M s t) n n := by
  intro r hr c hc
  rw [addColInto_apply]
  by_cases hct : c = t
  · rw [if_pos hct]
    exact Int.emod_two_eq_zero_or_one _
  · rw [if_neg hct]
    exact h r hr c hc

theorem addColInto_rowsIndep (M : BMat) (n s t : Nat) (hs : s < n) (ht : t < n)
    (hst : s ≠ t) (h : RowsIndep M n n) : RowsIndep (addColInto M s t) n n := by
  rw [rowsIndep_iff] at h ⊢
  intro cv hcv
  apply h cv
  intro j hj
  by_cases hjt : j = t
  · have h1 := hcv j hj
    have hsum : ∑ i in Finset.range n, cv i * z2 (addColInto M s t i j) =
        ∑ i in Finset.range n, cv i * z2 (M i j) +
        ∑ i in Finset.range n, cv i * z2 (M i s) := by
      rw [← Finset.sum_add_distrib]
      apply Finset.sum_congr rfl
      intro i _
      rw [addColInto_apply, if_pos hjt, z2_add_emod, ← hjt]
      ring
    rw [hsum] at h1
    have h2 := hcv s hs
    have hcol_s : ∑ i in Finset.range n, cv i * z2 (addColInto M s t i s) =
        ∑ i in Finset.range n, cv i * z2 (M i s) := by
      apply Finset.sum_congr rfl
      intro i _
      rw [addColInto_apply, if_neg hst]
    rw [hcol_s] at h2
    rw [h2, add_zero] at h1
    exact h1
  · have h1 := hcv j hj
    have heq : ∑ i in Finset.range n, cv i * z2 (addColInto M s t i j) =
        ∑ i in Finset.range n, cv i * z2 (M i j) := by
      apply Finset.sum_congr rfl
      intro i _
      rw [addColInto_apply, if_neg hjt]
    rw [heq] at h1
    exact h1

/-- Rows already brought to lower-triangular shape: every row `r < i` has a
unit diagonal entry and zeros to its right. -/
def TriRows (M : BMat) (n i : Nat) : Prop :=
  ∀ r < i, M r r = 1 ∧ ∀ c, r < c → c < n → M r c = 0

/-- Rows already turned into identity rows (phase 2 invariant): every row
`r` with `i ≤ r < n` is the `r`-th identity row. -/
def DoneRows (M : BMat) (n i : Nat) : Prop :=
  ∀ r, i ≤ r → r < n → M r r = 1 ∧ ∀ c, c < n → c ≠ r → M r c = 0

theorem exists_pivot (M : BMat) (n i : Nat) (hin : i < n) (hbin : IsBinary M n n)
    (hind : RowsIndep M n n) (htri : TriRows M n i) :
    ∃ j, i ≤ j ∧ j < n ∧ M i j = 1 := by
  by_contra hno
  push_neg at hno
  have hrow0 : ∀ r, r ≤ i → ∀ c, i ≤ c → c < n → M r c = 0 := by
    intro r hr c hic hcn
    rcases Nat.lt_or_ge r i with hri | hri
    · exact (htri r hri).2 c (by omega) hcn
    · have hri2 : r = i := by omega
      subst hri2
      rcases hbin r (by omega) c hcn with h0 | h1
      · exact h0
      · exact absurd h1 (hno c hic hcn)
  have hnli : ¬ LinearIndependent (ZMod 2)
      (fun (t : Fin (i + 1)) (c : Fin i) => z2 (M t.1 c.1)) := by
    intro hli
    have hc := hli.fintype_card_le_finrank
    rw [Module.finrank_fin_fun] at hc
    simp at hc
  obtain ⟨g, hg0, t0, hgt0⟩ := Fintype.not_linearIndependent_iff.1 hnli
  rw [rowsIndep_iff] at hind
  have hsums : ∀ j < n, ∑ r in Finset.range n,
      (if hr : r < i + 1 then g ⟨r, hr⟩ else 0) * z2 (M r j) = 0 := by
    intro j hj
    have hsub : ∑ r in Finset.range n,
        (if hr : r < i + 1 then g ⟨r, hr⟩ else 0) * z2 (M r j)
        = ∑ r in Finset.range (i + 1),
        (if hr : r < i + 1 then g ⟨r, hr⟩ else 0) * z2 (M r j) := by
      symm
      apply Finset.sum_subset
      · intro x hx
        rw [Finset.mem_range] at hx ⊢
        omega
      · intro x _ hx
        rw [Finset.mem_range] at hx
        rw [dif_neg hx, zero_mul]
    rw [hsub]
    rcases Nat.lt_or_ge j i with hji | hji
    · have happ : ∑ t : Fin (i + 1), g t * z2 (M t.1 j) = 0 := by
        have h2 := congrFun hg0 ⟨j, hji⟩
        rw [Finset.sum_apply] at h2
        simpa using h2
      rw [← Fin.sum_univ_eq_sum_range
        (fun r => (if hr : r < i + 1 then g ⟨r, hr⟩ else 0) * z2 (M r j)) (i + 1)]
      rw [← happ]
      apply Finset.sum_congr rfl
      intro t _
      rw [dif_pos t.2]
    · apply Finset.sum_eq_zero
      intro r hr
      rw [Finset.mem_range] at hr
      rw [hrow0 r (by omega) j hji hj, z2_zero, mul_zero]
  have hz := hind _ hsums t0.1 (by omega)
  rw [dif_pos t0.2] at hz
  apply hgt0
  rw [← hz]

theorem clearRight_fold (n i : Nat) (hin : i < n) :
    ∀ (js : List Nat), (∀ j ∈ js, i < j ∧ j < n) → js.Pairwise (· ≠ ·) →
    ∀ st : ColElimState,
      IsBinary st.M n n → RowsIndep st.M n n → TriRows st.M n i → st.M i i = 1 →
      IsBinary (js.foldl (colClearAt i) st).M n n ∧
      RowsIndep (js.foldl (colClearAt i) st).M n n ∧
      TriRows (js.foldl (colClearAt i) st).M n i ∧
      (js.foldl (colClearAt i) st).M i i = 1 ∧
      (∀ j ∈ js, (js.foldl (colClearAt i) st).M i j = 0) ∧
      (∀ r c, (∀ x ∈ js, c ≠ x) → (js.foldl (colClearAt i) st).M r c = st.M r c) := by
  intro js
  induction js with
  | nil =>
    intro _ _ st h1 h2 h3 h4
    exact ⟨h1, h2, h3, h4, (by intro j hj; cases hj), fun r c _ => rfl⟩
  | cons j js ih =>
    intro hjs hpw st h1 h2 h3 h4
    rw [List.foldl_cons]
    obtain ⟨hij, hjn⟩ := hjs j (List.mem_cons_self j js)
    have key : IsBinary (colClearAt i st j).M n n ∧ RowsIndep (colClearAt i st j).M n n ∧
        TriRows (colClearAt i st j).M n i ∧ (colClearAt i st j).M i i = 1 ∧
        (colClearAt i st j).M i j = 0 ∧
        (∀ r c, c ≠ j → (colClearAt i st j).M r c = st.M r c) := by
      unfold colClearAt
      by_cases hM : st.M i j = 1
      · rw [if_pos hM]
        simp only
        refine ⟨addColInto_isBinary st.M n i j h1,
          addColInto_rowsIndep st.M n i j hin hjn (by omega) h2, ?_, ?_, ?_, ?_⟩
        · intro r hr
          obtain ⟨hd, hz⟩ := h3 r hr
          refine ⟨?_, ?_⟩
          · rw [addColInto_apply, if_neg (by omega)]
            exact hd
          · intro c hrc hcn
            rw [addColInto_apply]
            by_cases hcj : c = j
            · rw [if_pos hcj]
              rw [hz j (by omega) hjn, hz i (by omega) hin]
              decide
            · rw [if_neg hcj]
              exact hz c hrc hcn
        · rw [addColInto_apply, if_neg (by omega)]
          exact h4
        · rw [addColInto_apply, if_pos rfl, hM, h4]
          decide
        · intro r c hcj
          rw [addColInto_apply, if_neg hcj]
      · rw [if_neg hM]
        refine ⟨h1, h2, h3, h4, ?_, fun _ _ _ => rfl⟩
        rcases h1 i hin j hjn with h0 | hbad
        · exact h0
        · exact absurd hbad hM
    obtain ⟨k1, k2, k3, k4, k5, k6⟩ := key
    have hjs2 : ∀ x ∈ js, i < x ∧ x < n := fun x hx => hjs x (List.mem_cons_of_mem j hx)
    have hpw2 : js.Pairwise (· ≠ ·) := (List.pairwise_cons.1 hpw).2
    have hjne : ∀ x ∈ js, j ≠ x := (List.pairwise_cons.1 hpw).1
    obtain ⟨r1, r2, r3, r4, r5, r6⟩ := ih hjs2 hpw2 (colClearAt i st j) k1 k2 k3 k4
    refine ⟨r1, r2, r3, r4, ?_, ?_⟩
    · intro x hx
      rcases List.mem_cons.1 hx with rfl | hx2
      · rw [r6 i x (fun y hy => hjne y hy)]
        exact k5
      · exact r5 x hx2
    · intro r c hc
      rw [r6 r c (fun y hy => hc y (List.mem_cons_of_mem j hy))]
      exact k6 r c (hc j (List.mem_cons_self j js))

theorem clearLeft_fold (n i : Nat) (hin : i < n) :
    ∀ (js : List Nat), (∀ j ∈ js, j < i) → js.Pairwise (· ≠ ·) →
    ∀ st : ColElimState,
      IsBinary st.M n n → TriRows st.M n n → DoneRows st.M n (i + 1) →
      IsBinary (js.foldl (colClearAt i) st).M n n ∧
      TriRows (js.foldl (colClearAt i) st).M n n ∧
      DoneRows (js.foldl (colClearAt i) st).M n (i + 1) ∧
      (∀ j ∈ js, (js.foldl (colClearAt i) st).M i j = 0) ∧
      (∀ r c, (∀ x ∈ js, c ≠ x) → (js.foldl (colClearAt i) st).M r c = st.M r c) := by
  intro js
  induction js with
  | nil =>
    intro _ _ st h1 h2 h3
    exact ⟨h1, h2, h3, (by intro j hj; cases hj), fun r c _ => rfl⟩
  | cons j js ih =>
    intro hjs hpw st h1 h2 h3
    rw [List.foldl_cons]
    have hji : j < i := hjs j (List.mem_cons_self j js)
    have hjn : j < n := by omega
    have key : IsBinary (colClearAt i st j).M n n ∧ TriRows (colClearAt i st j).M n n ∧
        DoneRows (colClearAt i st j).M n (i + 1) ∧
        (colClearAt i st j).M i j = 0 ∧
        (∀ r c, c ≠ j → (colClearAt i st j).M r c = st.M r c) := by
      unfold colClearAt
      by_cases hM : st.M i j = 1
      · rw [if_pos hM]
        simp only
        refine ⟨addColInto_isBinary st.M n i j h1, ?_, ?_, ?_, ?_⟩
        · intro r hr
          obtain ⟨hd, hz⟩ := h2 r hr
          refine ⟨?_, ?_⟩
          · rw [addColInto_apply]
            by_cases hrj : r = j
            · rw [if_pos hrj]
              subst hrj
              rw [hd, hz i hji hin]
              decide
            · rw [if_neg hrj]
              exact hd
          · intro c hrc hcn
            rw [addColInto_apply]
            by_cases hcj : c = j
            · rw [if_pos hcj]
              have h0a : st.M r j = 0 := (h2 r hr).2 j (by omega) hjn
              have h0b : st.M r i = 0 := (h2 r hr).2 i (by omega) hin
              rw [h0a, h0b]
              decide
            · rw [if_neg hcj]
              exact hz c hrc hcn
        · intro r hir hrn
          obtain ⟨hd, hz⟩ := h3 r hir hrn
          refine ⟨?_, ?_⟩
          · rw [addColInto_apply, if_neg (by omega)]
            exact hd
          · intro c hcn hcr
            rw [addColInto_apply]
            by_cases hcj : c = j
            · rw [if_pos hcj]
              rw [hz j hjn (by omega), hz i hin (by omega)]
              decide
            · rw [if_neg hcj]
              exact hz c hcn hcr
        · rw [addColInto_apply, if_pos rfl, hM]
          have hMii : st.M i i = 1 := (h2 i hin).1
          rw [hMii]
          decide
        · intro r c hcj
          rw [addColInto_apply, if_neg hcj]
      · rw [if_neg hM]
        refine ⟨h1, h2, h3, ?_, fun _ _ _ => rfl⟩
        rcases h1 i hin j hjn with h0 | hbad
        · exact h0
        · exact absurd hbad hM
    obtain ⟨k1, k2, k3, k4, k5⟩ := key
    have hjs2 : ∀ x ∈ js, x < i := fun x hx => hjs x (List.mem_cons_of_mem j hx)
    have hpw2 : js.Pairwise (· ≠ ·) := (List.pairwise_cons.1 hpw).2
    have hjne : ∀ x ∈ js, j ≠ x := (List.pairwise_cons.1 hpw).1
    obtain ⟨r1, r2, r3, r4, r5⟩ := ih hjs2 hpw2 (colClearAt i st j) k1 k2 k3
    refine ⟨r1, r2, r3, ?_, ?_⟩
    · intro x hx
      rcases List.mem_cons.1 hx with rfl | hx2
      · rw [r5 i x (fun y hy => hjne y hy)]
        exact k4
      · exact r4 x hx2
    · intro r c hc
      rw [r5 r c (fun y hy => hc y (List.mem_cons_of_mem j hy))]
      exact k5 r c (hc j (List.mem_cons_self j js))

theorem colPhase1Step_inv (n : Nat) (st : ColElimState) (i : Nat) (hin : i < n)
    (h1 : IsBinary st.M n n) (h2 : RowsIndep st.M n n) (h3 : TriRows st.M n i) :
    IsBinary (colPhase1Step n st i).M n n ∧ RowsIndep (colPhase1Step n st i).M n n ∧
    TriRows (colPhase1Step n st i).M n (i + 1) := by
  have hfix : IsBinary (colFixPivot n i st).M n n ∧ RowsIndep (colFixPivot n i st).M n n ∧
      TriRows (colFixPivot n i st).M n i ∧ (colFixPivot n i st).M i i = 1 := by
    unfold colFixPivot
    by_cases hM : st.M i i ≠ 1
    · rw [if_pos hM]
      have hMii : st.M i i = 0 := by
        rcases h1 i hin i hin with h0 | hbad
        · exact h0
        · exact absurd hbad hM
      obtain ⟨j, hij, hjn, hMij⟩ := exists_pivot st.M n i hin h1 h2 h3
      have hij2 : i + 1 ≤ j := by
        rcases Nat.eq_or_lt_of_le hij with rfl | h
        · rw [hMii] at hMij
          exact absurd hMij (by decide)
        · omega
      cases hfind : (List.range' (i + 1) (n - (i + 1))).find? (fun c => st.M i c == 1) with
      | none =>
        exfalso
        have hmem : j ∈ List.range' (i + 1) (n - (i + 1)) := by
          rw [List.mem_range'_1]
          omega
        have := List.find?_eq_none.1 hfind j hmem
        rw [beq_iff_eq] at this
        exact this hMij
      | some j0 =>
        have hj0mem : j0 ∈ List.range' (i + 1) (n - (i + 1)) := List.mem_of_find?_eq_some hfind
        have hj0 : i + 1 ≤ j0 ∧ j0 < n := by
          rw [List.mem_range'_1] at hj0mem
          omega
        have hMij0 : st.M i j0 = 1 := by
          have := List.find?_some hfind
          rwa [beq_iff_eq] at this
        simp only
        refine ⟨addColInto_isBinary st.M n j0 i h1,
          addColInto_rowsIndep st.M n j0 i hj0.2 hin (by omega) h2, ?_, ?_⟩
        · intro r hr
          obtain ⟨hd, hz⟩ := h3 r hr
          refine ⟨?_, ?_⟩
          · rw [addColInto_apply, if_neg (by omega)]
            exact hd
          · intro c hrc hcn
            rw [addColInto_apply]
            by_cases hci : c = i
            · rw [if_pos hci]
              rw [hz i (by omega) hin, hz j0 (by omega) hj0.2]
              decide
            · rw [if_neg hci]
              exact hz c hrc hcn
        · rw [addColInto_apply, if_pos rfl, hMii, hMij0]
          decide
    · rw [if_neg hM]
      push_neg at hM
      exact ⟨h1, h2, h3, hM⟩
  unfold colPhase1Step
  have hrange : ∀ j ∈ List.range' (i + 1) (n - (i + 1)), i < j ∧ j < n := by
    intro j hj
    rw [List.mem_range'_1] at hj
    omega
  have hpw : (List.range' (i + 1) (n - (i + 1))).Pairwise (· ≠ ·) :=
    (List.pairwise_lt_range' (i + 1) (n - (i + 1)) 1 (by omega)).imp
      (fun h => Nat.ne_of_lt h)
  obtain ⟨c1, c2, c3, c4, c5, c6⟩ := clearRight_fold n i hin _ hrange hpw
    (colFixPivot n i st) hfix.1 hfix.2.1 hfix.2.2.1 hfix.2.2.2
  refine ⟨c1, c2, ?_⟩
  intro r hr
  rcases Nat.lt_or_ge r i with hri | hri
  · exact c3 r hri
  · have hreq : r = i := by omega
    subst hreq
    refine ⟨c4, ?_⟩
    intro c hrc hcn
    apply c5
    rw [List.mem_range'_1]
    omega

theorem colPhase1_inv (A : BMat) (n : Nat) (h1 : IsBinary A n n) (h2 : RowsIndep A n n) :
    ∀ i, i ≤ n →
      IsBinary ((List.range i).foldl (colPhase1Step n) ⟨A, []⟩).M n n ∧
      RowsIndep ((List.range i).foldl (colPhase1Step n) ⟨A, []⟩).M n n ∧
      TriRows ((List.range i).foldl (colPhase1Step n) ⟨A, []⟩).M n i := by
  intro i
  induction i with
  | zero =>
    intro _
    exact ⟨h1, h2, fun r hr => absurd hr (by omega)⟩
  | succ i ih =>
    intro hi
    obtain ⟨k1, k2, k3⟩ := ih (by omega)
    rw [List.range_succ, List.foldl_append, List.foldl_cons, List.foldl_nil]
    exact colPhase1Step_inv n _ i (by omega) k1 k2 k3

theorem colPhase2Step_inv (n : Nat) (st : ColElimState) (i : Nat) (hin : i < n)
    (h1 : IsBinary st.M n n) (h2 : TriRows st.M n n) (h3 : DoneRows st.M n (i + 1)) :
    IsBinary (colPhase2Step st i).M n n ∧ TriRows (colPhase2Step st i).M n n ∧
    DoneRows (colPhase2Step st i).M n i := by
  unfold colPhase2Step
  have hrange : ∀ j ∈ (List.range i).reverse, j < i := by
    intro j hj
    rw [List.mem_reverse] at hj
    exact List.mem_range.1 hj
  have hpw : ((List.range i).reverse).Pairwise (· ≠ ·) := by
    rw [List.pairwise_reverse]
    exact (List.pairwise_lt_range i).imp (fun h => (Nat.ne_of_lt h).symm)
  obtain ⟨c1, c2, c3, c4, c5⟩ := clearLeft_fold n i hin _ hrange hpw st h1 h2 h3
  refine ⟨c1, c2, ?_⟩
  intro r hir hrn
  rcases Nat.lt_or_ge r (i + 1) with hri | hri
  · have hreq : r = i := by omega
    subst hreq
    refine ⟨(c2 r hrn).1, ?_⟩
    intro c hcn hcr
    rcases Nat.lt_or_ge c r with hc | hc
    · apply c4
      rw [List.mem_reverse]
      exact List.mem_range.2 hc
    · exact (c2 r hrn).2 c (by omega) hcn
  · exact c3 r (by omega) hrn

theorem colPhase2_inv (n : Nat) :
    ∀ i, i ≤ n → ∀ st : ColElimState,
      IsBinary st.M n n → TriRows st.M n n → DoneRows st.M n i →
      IsBinary (((List.range i).reverse).foldl colPhase2Step st).M n n ∧
      TriRows (((List.range i).reverse).foldl colPhase2Step st).M n n ∧
      DoneRows (((List.range i).reverse).foldl colPhase2Step st).M n 0 := by
  intro i
  induction i with
  | zero =>
    intro _ st h1 h2 h3
    exact ⟨h1, h2, h3⟩
  | succ i ih =>
    intro hi st h1 h2 h3
    have hrev : (List.range (i + 1)).reverse = i :: (List.range i).reverse := by
      rw [List.range_succ, List.reverse_append]
      rfl
    rw [hrev, List.foldl_cons]
    obtain ⟨k1, k2, k3⟩ := colPhase2Step_inv n st i (by omega) h1 h2 h3
    exact ih (by omega) _ k1 k2 k3

theorem applyColSteps_append_single (A : BMat) (steps : List (Nat × Nat)) (p : Nat × Nat) :
    applyColSteps A (steps ++ [p]) = addColInto (applyColSteps A steps) p.1 p.2 := by
  unfold applyColSteps
  rw [List.foldl_append, List.foldl_cons, List.foldl_nil]

/-- The working matrix of the elimination is the original matrix with the
recorded steps applied, at every point of the run. -/
def Tracks (A : BMat) (st : ColElimState) : Prop :=
  st.M = applyColSteps A st.steps

theorem tracks_colFixPivot (A : BMat) (n i : Nat) (st : ColElimState) (h : Tracks A st) :
    Tracks A (colFixPivot n i st) := by
  unfold colFixPivot
  by_cases hM : st.M i i ≠ 1
  · rw [if_pos hM]
    cases hfind : (List.range' (i + 1) (n - (i + 1))).find? (fun c => st.M i c == 1) with
    | none => exact h
    | some j =>
      unfold Tracks at h ⊢
      simp only
      rw [applyColSteps_append_single, ← h]
  · rw [if_neg hM]
    exact h

theorem tracks_colClearAt (A : BMat) (i j : Nat) (st : ColElimState) (h : Tracks A st) :
    Tracks A (colClearAt i st j) := by
  unfold colClearAt
  by_cases hM : st.M i j = 1
  · rw [if_pos hM]
    unfold Tracks at h ⊢
    simp only
    rw [applyColSteps_append_single, ← h]
  · rw [if_neg hM]
    exact h

theorem tracks_colElimRun (A : BMat) (n : Nat) : Tracks A (colElimRun A n) := by
  unfold colElimRun
  have hstep1 : ∀ (st : ColElimState) (i : Nat), Tracks A st →
      Tracks A (colPhase1Step n st i) := by
    intro st i h
    unfold colPhase1Step
    refine foldl_preserve (Tracks A) (fun _ => True) _ _ (fun _ _ => trivial) ?_ _
      (tracks_colFixPivot A n i st h)
    intro st2 j _ h2
    exact tracks_colClearAt A i j st2 h2
  have hstep2 : ∀ (st : ColElimState) (i : Nat), Tracks A st →
      Tracks A (colPhase2Step st i) := by
    intro st i h
    unfold colPhase2Step
    refine foldl_preserve (Tracks A) (fun _ => True) _ _ (fun _ _ => trivial) ?_ _ h
    intro st2 j _ h2
    exact tracks_colClearAt A i j st2 h2
  refine foldl_preserve (Tracks A) (fun _ => True) _ _ (fun _ _ => trivial)
    (fun st i _ h => hstep2 st i h) _
    (foldl_preserve (Tracks A) (fun _ => True) _ _ (fun _ _ => trivial)
      (fun st i _ h => hstep1 st i h) _ rfl)

/-- C2: for every square full-rank (GF(2)-row-independent) `n × n` binary
matrix `A`, applying the step list returned by
`col_wise_gaussian_elimination_steps(A)` in order — step `(s, t)` adding
column `s` into column `t` modulo 2 — transforms `A` into the `n × n`
identity matrix. -/
theorem col_steps_reach_identity (A : BMat) (n : Nat)
    (hbin : IsBinary A n n) (hfull : RowsIndep A n n) :
    IsIdentityOn (applyColSteps A (col_wise_gaussian_elimination_steps A n)) n := by
  have htr := tracks_colElimRun A n
  unfold Tracks at htr
  unfold col_wise_gaussian_elimination_steps
  rw [← htr]
  unfold colElimRun
  obtain ⟨k1, k2, k3⟩ := colPhase1_inv A n hbin hfull n (le_refl n)
  obtain ⟨m1, m2, m3⟩ := colPhase2_inv n n (le_refl n) _ k1 k3
    (fun r hr1 hr2 => absurd hr2 (by omega))
  intro r hr c hc
  by_cases hrc : r = c
  · rw [if_pos hrc]
    subst hrc
    exact (m3 r (Nat.zero_le r) hr).1
  · rw [if_neg hrc]
    exact (m3 r (Nat.zero_le r) hr).2 c hc (fun hcr => hrc hcr.symm)

/-- Witness for `col_steps_reach_identity` on the concrete full-rank binary
matrix `[[0,1],[1,0]]`. -/
theorem col_steps_reach_identity_witness :
    IsIdentityOn (applyColSteps (fun r c => if r + c = 1 then (1 : Int) else 0)
      (col_wise_gaussian_elimination_steps
        (fun r c => if r + c = 1 then (1 : Int) else 0) 2)) 2 :=
  col_steps_reach_identity (fun r c => if r + c = 1 then (1 : Int) else 0) 2
    (by decide) (by decide)

/-! ### Claim C4: row elimination pivots and GF(2) rank

The row space of the working matrix is kept equal to the row space of the
input (every row operation is invertible in characteristic 2), and the
discovered pivots keep enough structure — pivot entry 1, zeros below every
pivot, all rows past the counter zero on the scanned columns — to read the
rank off the final matrix as the number of pivots. -/

theorem addRowInto_apply (M : BMat) (s t r c : Nat) :
    addRowInto M s t r c = if r = t then (M t c + M s c) % 2 else M r c := rfl

theorem addRowInto_isBinary (M : BMat) (n m s t : Nat) (h : IsBinary M n m) :
    IsBinary (addRowInto M s t) n m := by
  intro r hr c hc
  rw [addRowInto_apply]
  by_cases hrt : r = t
  · rw [if_pos hrt]
    exact Int.emod_two_eq_zero_or_one _
  · rw [if_neg hrt]
    exact h r hr c hc

/-- Row vectors of the top `n × m` block of a matrix, over GF(2). -/
def rowVecs (M : BMat) (n m : Nat) : Fin n → (Fin m → ZMod 2) :=
  fun i => fun j => z2 (M i.1 j.1)

/-- Row space of the top `n × m` block of a matrix, over GF(2). -/
def rowSpace (M : BMat) (n m : Nat) : Submodule (ZMod 2) (Fin m → ZMod 2) :=
  Submodule.span (ZMod 2) (Set.range (rowVecs M n m))

theorem addRowInto_rowSpace (M : BMat) (n m s t : Nat) (hs : s < n) (ht : t < n)
    (hst : s ≠ t) : rowSpace (addRowInto M s t) n m = rowSpace M n m := by
  have h2 : ∀ a : ZMod 2, a + a = 0 := by decide
  have hw : ∀ i : Fin n, i.1 ≠ t → rowVecs (addRowInto M s t) n m i = rowVecs M n m i := by
    intro i hi
    funext j
    unfold rowVecs
    rw [addRowInto_apply, if_neg hi]
  have hwt : rowVecs (addRowInto M s t) n m ⟨t, ht⟩ =
      rowVecs M n m ⟨t, ht⟩ + rowVecs M n m ⟨s, hs⟩ := by
    funext j
    unfold rowVecs
    rw [addRowInto_apply, if_pos rfl, z2_add_emod]
    rfl
  unfold rowSpace
  apply le_antisymm
  · apply Submodule.span_le.2
    rintro x ⟨i, rfl⟩
    by_cases hi : i.1 = t
    · have hie : i = ⟨t, ht⟩ := Fin.ext hi
      rw [hie, hwt]
      exact Submodule.add_mem _ (Submodule.subset_span ⟨⟨t, ht⟩, rfl⟩)
        (Submodule.subset_span ⟨⟨s, hs⟩, rfl⟩)
    · rw [hw i hi]
      exact Submodule.subset_span ⟨i, rfl⟩
  · apply Submodule.span_le.2
    rintro x ⟨i, rfl⟩
    by_cases hi : i.1 = t
    · have hie : i = ⟨t, ht⟩ := Fin.ext hi
      have hvt : rowVecs M n m ⟨t, ht⟩ =
          rowVecs (addRowInto M s t) n m ⟨t, ht⟩ +
          rowVecs (addRowInto M s t) n m ⟨s, hs⟩ := by
        rw [hwt, hw ⟨s, hs⟩ hst]
        funext j
        simp only [Pi.add_apply]
        rw [add_assoc, h2 (rowVecs M n m ⟨s, hs⟩ j), add_zero]
      rw [hie, hvt]
      exact Submodule.add_mem _ (Submodule.subset_span ⟨⟨t, ht⟩, rfl⟩)
        (Submodule.subset_span ⟨⟨s, hs⟩, rfl⟩)
    · rw [← hw i hi]
      exact Submodule.subset_span ⟨i, rfl⟩

theorem rowElimBelow_fold (n m k j : Nat) (hk : k < n) (hj : j < m) :
    ∀ (js : List Nat), (∀ i ∈ js, k < i ∧ i < n) → js.Pairwise (· ≠ ·) →
    ∀ M : BMat, IsBinary M n m → M k j = 1 →
      IsBinary (js.foldl (fun N i => if N i j = 1 then addRowInto N k i else N) M) n m ∧
      (∀ r, (∀ x ∈ js, r ≠ x) → ∀ c,
        (js.foldl (fun N i => if N i j = 1 then addRowInto N k i else N) M) r c = M r c) ∧
      (∀ i ∈ js, ∀ c,
        (js.foldl (fun N i => if N i j = 1 then addRowInto N k i else N) M) i c = M i c ∨
        (js.foldl (fun N i => if N i j = 1 then addRowInto N k i else N) M) i c =
          (M i c + M k c) % 2) ∧
      (∀ i ∈ js,
        (js.foldl (fun N i => if N i j = 1 then addRowInto N k i else N) M) i j = 0) ∧
      rowSpace (js.foldl (fun N i => if N i j = 1 then addRowInto N k i else N) M) n m =
        rowSpace M n m := by
  intro js
  induction js with
  | nil =>
    intro _ _ M hbin _
    exact ⟨hbin, fun r _ c => rfl, (by intro i hi; cases hi), (by intro i hi; cases hi), rfl⟩
  | cons i js ih =>
    intro hjs hpw M hbin hMkj
    rw [List.foldl_cons]
    obtain ⟨hki, hin⟩ := hjs i (List.mem_cons_self i js)
    have hine : ∀ x ∈ js, i ≠ x := (List.pairwise_cons.1 hpw).1
    have hjs2 : ∀ x ∈ js, k < x ∧ x < n := fun x hx => hjs x (List.mem_cons_of_mem i hx)
    have hpw2 : js.Pairwise (· ≠ ·) := (List.pairwise_cons.1 hpw).2
    have key : IsBinary (if M i j = 1 then addRowInto M k i else M) n m ∧
        (∀ r c, r ≠ i → (if M i j = 1 then addRowInto M k i else M) r c = M r c) ∧
        (∀ c, (if M i j = 1 then addRowInto M k i else M) i c = M i c ∨
          (if M i j = 1 then addRowInto M k i else M) i c = (M i c + M k c) % 2) ∧
        (if M i j = 1 then addRowInto M k i else M) i j = 0 ∧
        (if M i j = 1 then addRowInto M k i else M) k j = 1 ∧
        rowSpace (if M i j = 1 then addRowInto M k i else M) n m = rowSpace M n m := by
      by_cases hMij : M i j = 1
      · rw [if_pos hMij]
        refine ⟨addRowInto_isBinary M n m k i hbin, ?_, ?_, ?_, ?_, ?_⟩
        · intro r c hr
          rw [addRowInto_apply, if_neg hr]
        · intro c
          right
          rw [addRowInto_apply, if_pos rfl]
        · rw [addRowInto_apply, if_pos rfl, hMij, hMkj]
          decide
        · rw [addRowInto_apply, if_neg (by omega)]
          exact hMkj
        · exact addRowInto_rowSpace M n m k i hk hin (by omega)
      · rw [if_neg hMij]
        refine ⟨hbin, fun r c _ => rfl, fun c => Or.inl rfl, ?_, hMkj, rfl⟩
        rcases hbin i hin j hj with h0 | hbad
        · exact h0
        · exact absurd hbad hMij
    obtain ⟨k1, k2, k3, k4, k5, k6⟩ := key
    obtain ⟨r1, r2, r3, r4, r5⟩ := ih hjs2 hpw2 _ k1 k5
    refine ⟨r1, ?_, ?_, ?_, r5.trans k6⟩
    · intro r hr c
      rw [r2 r (fun x hx => hr x (List.mem_cons_of_mem i hx)) c]
      exact k2 r c (hr i (List.mem_cons_self i js))
    · intro x hx c
      rcases List.mem_cons.1 hx with rfl | hx2
      · rw [r2 x (fun y hy => hine y hy) c]
        exact k3 c
      · rcases r3 x hx2 c with h | h
        · rw [h, k2 x c (fun hxi => (hine x hx2) hxi.symm)]
          left
          rfl
        · rw [h, k2 x c (fun hxi => (hine x hx2) hxi.symm),
            k2 k c (Nat.ne_of_lt hki)]
          right
          rfl
    · intro x hx
      rcases List.mem_cons.1 hx with rfl | hx2
      · rw [r2 x (fun y hy => hine y hy) j]
        exact k4
      · exact r4 x hx2

/-- Invariant of the row-wise elimination after scanning the first `jcur`
columns. -/
structure RowInv (A : BMat) (n m : Nat) (st : RowElimState) (jcur : Nat) : Prop where
  bin : IsBinary st.M n m
  klen : st.k = st.pivots.length
  kle : st.k ≤ n
  bounds : ∀ p ∈ st.pivots, p.1 < st.k ∧ p.2 < jcur
  pw : st.pivots.Pairwise (fun p q => p.1 < q.1 ∧ p.2 < q.2)
  pivotAt : ∀ t, t < st.k → ∃ c, (t, c) ∈ st.pivots ∧ st.M t c = 1 ∧
    ∀ i, t < i → i < n → st.M i c = 0
  leftZero : ∀ i, st.k ≤ i → i < n → ∀ c, c < jcur → st.M i c = 0
  spanEq : rowSpace st.M n m = rowSpace A n m

theorem rowFindPivot_spec (n m k j : Nat) (hk : k < n) (hj : j < m)
    (M : BMat) (hbin : IsBinary M n m) :
    ((rowFindPivot n k j M).2 = true →
      ((rowFindPivot n k j M).1 = M ∨
        ∃ i0, k < i0 ∧ i0 < n ∧ (rowFindPivot n k j M).1 = addRowInto M i0 k) ∧
      (rowFindPivot n k j M).1 k j = 1) ∧
    ((rowFindPivot n k j M).2 = false →
      (rowFindPivot n k j M).1 = M ∧
      (∀ i, k ≤ i → i < n → M i j = 0)) := by
  unfold rowFindPivot
  by_cases hM : M k j = 1
  · rw [if_pos hM]
    exact ⟨fun _ => ⟨Or.inl rfl, hM⟩, fun hfalse => (by cases hfalse)⟩
  · rw [if_neg hM]
    have hMkj0 : M k j = 0 := by
      rcases hbin k hk j hj with h0 | hbad
      · exact h0
      · exact absurd hbad hM
    cases hfind : (List.range' (k + 1) (n - (k + 1))).find? (fun i => M i j == 1) with
    | none =>
      constructor
      · intro htrue
        cases htrue
      · intro _
        refine ⟨rfl, ?_⟩
        intro i hki hin
        rcases Nat.eq_or_lt_of_le hki with rfl | hlt
        · exact hMkj0
        · have hmem : i ∈ List.range' (k + 1) (n - (k + 1)) := by
            rw [List.mem_range'_1]
            omega
          have hni := List.find?_eq_none.1 hfind i hmem
          rw [beq_iff_eq] at hni
          rcases hbin i hin j hj with h0 | hbad
          · exact h0
          · exact absurd hbad hni
    | some i0 =>
      have hmem := List.mem_of_find?_eq_some hfind
      rw [List.mem_range'_1] at hmem
      have hMi0 : M i0 j = 1 := by
        have := List.find?_some hfind
        rwa [beq_iff_eq] at this
      constructor
      · intro _
        constructor
        · right
          exact ⟨i0, by omega, by omega, rfl⟩
        · show addRowInto M i0 k k j = 1
          rw [addRowInto_apply, if_pos rfl, hMkj0, hMi0]
          decide
      · intro hfalse
        cases hfalse

theorem rowStep_inv (A : BMat) (n m : Nat) (st : RowElimState) (j : Nat)
    (hj : j < m) (h : RowInv A n m st j) : RowInv A n m (rowStep n st j) (j + 1) := by
  unfold rowStep
  by_cases hkn : st.k = n
  · rw [if_pos hkn]
    refine ⟨h.bin, h.klen, h.kle, ?_, h.pw, h.pivotAt, ?_, h.spanEq⟩
    · intro p hp
      obtain ⟨h1, h2⟩ := h.bounds p hp
      exact ⟨h1, by omega⟩
    · intro i hi hin c hc
      rw [hkn] at hi
      exact absurd hin (by omega)
  · rw [if_neg hkn]
    have hkn2 : st.k < n := Nat.lt_of_le_of_ne h.kle hkn
    obtain ⟨hspecT, hspecF⟩ := rowFindPivot_spec n m st.k j hkn2 hj st.M h.bin
    cases hfp : rowFindPivot n st.k j st.M with
    | mk M1 found =>
      rw [hfp] at hspecT hspecF
      cases found with
      | false =>
        obtain ⟨hM1, hzero⟩ := hspecF rfl
        show RowInv A n m ⟨M1, st.k, st.pivots⟩ (j + 1)
        subst hM1
        refine ⟨h.bin, h.klen, h.kle, ?_, h.pw, h.pivotAt, ?_, h.spanEq⟩
        · intro p hp
          obtain ⟨h1, h2⟩ := h.bounds p hp
          exact ⟨h1, by omega⟩
        · intro i hi hin c hc
          rcases Nat.lt_or_ge c j with hcj | hcj
          · exact h.leftZero i hi hin c hcj
          · have hcj2 : c = j := by omega
            subst hcj2
            exact hzero i hi hin
      | true =>
        obtain ⟨hform, hM1kj⟩ := hspecT rfl
        show RowInv A n m ⟨rowElimBelow n st.k j M1, st.k + 1,
          st.pivots ++ [(st.k, j)]⟩ (j + 1)
        have hM1bin : IsBinary M1 n m := by
          rcases hform with rfl | ⟨i0, hki0, hi0n, rfl⟩
          · exact h.bin
          · exact addRowInto_isBinary st.M n m i0 st.k h.bin
        have hM1frame : ∀ r c, r ≠ st.k → M1 r c = st.M r c := by
          intro r c hr
          rcases hform with rfl | ⟨i0, hki0, hi0n, rfl⟩
          · rfl
          · rw [addRowInto_apply, if_neg hr]
        have hM1rowk : ∀ c, (∀ i, st.k ≤ i → i < n → st.M i c = 0) → M1 st.k c = 0 := by
          intro c hc
          rcases hform with rfl | ⟨i0, hki0, hi0n, rfl⟩
          · exact hc st.k (le_refl _) hkn2
          · rw [addRowInto_apply, if_pos rfl, hc st.k (le_refl _) hkn2,
              hc i0 (by omega) hi0n]
            decide
        have hM1span : rowSpace M1 n m = rowSpace st.M n m := by
          rcases hform with rfl | ⟨i0, hki0, hi0n, rfl⟩
          · rfl
          · exact addRowInto_rowSpace st.M n m i0 st.k hi0n hkn2 (by omega)
        have hjsmem : ∀ i ∈ List.range' (st.k + 1) (n - (st.k + 1)), st.k < i ∧ i < n := by
          intro i hi
          rw [List.mem_range'_1] at hi
          omega
        have hjspw : (List.range' (st.k + 1) (n - (st.k + 1))).Pairwise (· ≠ ·) :=
          (List.pairwise_lt_range' (st.k + 1) (n - (st.k + 1)) 1 (by omega)).imp
            (fun hlt => Nat.ne_of_lt hlt)
        obtain ⟨e1, e2, e3, e4, e5⟩ := rowElimBelow_fold n m st.k j hkn2 hj
          (List.range' (st.k + 1) (n - (st.k + 1))) hjsmem hjspw M1 hM1bin hM1kj
        have hframe : ∀ r, ¬ (st.k < r ∧ r < n) → ∀ c,
            rowElimBelow n st.k j M1 r c = M1 r c := by
          intro r hr c
          unfold rowElimBelow
          apply e2
          intro x hx
          have := hjsmem x hx
          omega
        have hmemjs : ∀ i, st.k < i → i < n → i ∈ List.range' (st.k + 1) (n - (st.k + 1)) := by
          intro i h1 h2
          rw [List.mem_range'_1]
          omega
        refine ⟨?_, ?_, (show st.k + 1 ≤ n by omega), ?_, ?_, ?_, ?_, ?_⟩
        · show IsBinary (rowElimBelow n st.k j M1) n m
          unfold rowElimBelow
          exact e1
        · show st.k + 1 = (st.pivots ++ [(st.k, j)]).length
          rw [List.length_append, List.length_singleton, ← h.klen]
        · intro p hp
          show p.1 < st.k + 1 ∧ p.2 < j + 1
          rcases List.mem_append.1 hp with hp | hp
          · obtain ⟨h1, h2⟩ := h.bounds p hp
            exact ⟨by omega, by omega⟩
          · rcases List.mem_singleton.1 hp with rfl
            exact ⟨by omega, by omega⟩
        · show (st.pivots ++ [(st.k, j)]).Pairwise (fun p q => p.1 < q.1 ∧ p.2 < q.2)
          rw [List.pairwise_append]
          refine ⟨h.pw, List.pairwise_singleton _ _, ?_⟩
          intro a ha b hb
          rcases List.mem_singleton.1 hb with rfl
          obtain ⟨h1, h2⟩ := h.bounds a ha
          exact ⟨h1, h2⟩
        · intro t ht
          have ht2 : t < st.k + 1 := ht
          rcases Nat.lt_or_ge t st.k with htk | htk
          · obtain ⟨c, hcmem, hc1, hc0⟩ := h.pivotAt t htk
            refine ⟨c, List.mem_append.2 (Or.inl hcmem), ?_, ?_⟩
            · show rowElimBelow n st.k j M1 t c = 1
              rw [hframe t (by omega) c, hM1frame t c (by omega)]
              exact hc1
            · intro i hti hin
              have hM1kc : M1 st.k c = 0 := by
                rcases hform with rfl | ⟨i0, hki0, hi0n, rfl⟩
                · exact hc0 st.k (by omega) hkn2
                · rw [addRowInto_apply, if_pos rfl, hc0 st.k (by omega) hkn2,
                    hc0 i0 (by omega) hi0n]
                  decide
              rcases Nat.lt_or_ge i (st.k + 1) with hik | hik
              · rcases Nat.eq_or_lt_of_le (Nat.lt_succ_iff.1 hik) with hik1 | hik2
                · show rowElimBelow n st.k j M1 i c = 0
                  rw [hframe i (by omega) c, hik1]
                  exact hM1kc
                · show rowElimBelow n st.k j M1 i c = 0
                  rw [hframe i (by omega) c, hM1frame i c (by omega)]
                  exact hc0 i hti hin
              · have hiel := e3 i (hmemjs i (by omega) hin) c
                have hne : i ≠ st.k := by omega
                show rowElimBelow n st.k j M1 i c = 0
                unfold rowElimBelow
                rcases hiel with hie | hie
                · rw [hie, hM1frame i c hne]
                  exact hc0 i hti hin
                · rw [hie, hM1frame i c hne, hM1kc,
                    hc0 i hti hin]
                  decide
          · have hteq : t = st.k := by omega
            refine ⟨j, ?_, ?_, ?_⟩
            · rw [hteq]
              exact List.mem_append.2 (Or.inr (List.mem_singleton.2 rfl))
            · show rowElimBelow n st.k j M1 t j = 1
              rw [hframe t (by omega) j, hteq]
              exact hM1kj
            · intro i hti hin
              show rowElimBelow n st.k j M1 i j = 0
              exact e4 i (hmemjs i (by omega) hin)
        · intro i hi hin c hc
          have hi2 : st.k + 1 ≤ i := hi
          have hik : st.k < i := by omega
          have himem := hmemjs i hik hin
          rcases Nat.lt_or_ge c j with hcj | hcj
          · have hM1ic : M1 i c = 0 := by
              rw [hM1frame i c (by omega)]
              exact h.leftZero i (by omega) hin c hcj
            have hM1kc : M1 st.k c = 0 :=
              hM1rowk c (fun r hr1 hr2 => h.leftZero r hr1 hr2 c hcj)
            rcases e3 i himem c with hie | hie
            · show rowElimBelow n st.k j M1 i c = 0
              unfold rowElimBelow
              rw [hie]
              exact hM1ic
            · show rowElimBelow n st.k j M1 i c = 0
              unfold rowElimBelow
              rw [hie, hM1ic, hM1kc]
              decide
          · have hcj2 : c = j := by omega
            show rowElimBelow n st.k j M1 i c = 0
            rw [hcj2]
            exact e4 i himem
        · show rowSpace (rowElimBelow n st.k j M1) n m = rowSpace A n m
          unfold rowElimBelow
          rw [e5, hM1span, h.spanEq]

theorem rowElimRun_inv (A : BMat) (n m : Nat) (hbin : IsBinary A n m) :
    ∀ j, j ≤ m → RowInv A n m ((List.range j).foldl (rowStep n) ⟨A, 0, []⟩) j := by
  intro j
  induction j with
  | zero =>
    intro _
    show RowInv A n m ⟨A, 0, []⟩ 0
    refine ⟨hbin, rfl, Nat.zero_le n, ?_, List.Pairwise.nil, ?_, ?_, rfl⟩
    · intro p hp
      exact absurd hp (List.not_mem_nil p)
    · intro t ht
      exact absurd (show t < 0 from ht) (by omega)
    · intro i hi hin c hc
      exact absurd (show c < 0 from hc) (by omega)
  | succ j ih =>
    intro hj
    rw [List.range_succ, List.foldl_append, List.foldl_cons, List.foldl_nil]
    exact rowStep_inv A n m _ j (by omega) (ih (by omega))

/-- Family of the first `K` rows of a matrix, over GF(2); these are the
pivot rows of the reduced matrix. -/
def pivotRows (M : BMat) (n m K : Nat) (hKn : K ≤ n) : Fin K → (Fin m → ZMod 2) :=
  fun t => rowVecs M n m ⟨t.1, lt_of_lt_of_le t.2 hKn⟩

/-- C4: for every `n × m` binary matrix `A` with `n ≤ m`, the pivot list of
`row_wise_gaussian_elimination_pivots(A)` is strictly increasing in both the
row and the column index, its length equals the GF(2) rank of `A` (the
dimension of the row space of `A` over GF(2)), and `get_rank(A)` returns
that length. -/
theorem row_pivots_increasing_and_rank (A : BMat) (n m : Nat)
    (hnm : n ≤ m) (hbin : IsBinary A n m) :
    (row_wise_gaussian_elimination_pivots A n m).Pairwise
      (fun p q => p.1 < q.1 ∧ p.2 < q.2) ∧
    (row_wise_gaussian_elimination_pivots A n m).length =
      Module.finrank (ZMod 2) (rowSpace A n m) ∧
    get_rank A n m = (row_wise_gaussian_elimination_pivots A n m).length := by
  have hinv := rowElimRun_inv A n m hbin m (le_refl m)
  set st := (List.range m).foldl (rowStep n) (⟨A, 0, []⟩ : RowElimState) with hst
  have hpiv : row_wise_gaussian_elimination_pivots A n m = st.pivots := rfl
  have hK := hinv.klen
  have hKn : st.pivots.length ≤ n := by
    have := hinv.kle
    omega
  have hspan2 : rowSpace st.M n m = Submodule.span (ZMod 2)
      (Set.range (pivotRows st.M n m st.pivots.length hKn)) := by
    unfold rowSpace
    apply le_antisymm
    · apply Submodule.span_le.2
      rintro x ⟨i, rfl⟩
      by_cases hi : i.1 < st.pivots.length
      · exact Submodule.subset_span ⟨⟨i.1, hi⟩, rfl⟩
      · have hzero : rowVecs st.M n m i = 0 := by
          funext c
          show z2 (st.M i.1 c.1) = 0
          rw [hinv.leftZero i.1 (by omega) i.2 c.1 c.2, z2_zero]
        rw [hzero]
        exact Submodule.zero_mem _
    · apply Submodule.span_le.2
      rintro x ⟨t, rfl⟩
      exact Submodule.subset_span ⟨⟨t.1, lt_of_lt_of_le t.2 hKn⟩, rfl⟩
  have hli : LinearIndependent (ZMod 2)
      (pivotRows st.M n m st.pivots.length hKn) := by
    rw [Fintype.linearIndependent_iff]
    intro g hg
    have hall : ∀ tv, ∀ htv : tv < st.pivots.length, g ⟨tv, htv⟩ = 0 := by
      intro tv
      induction tv using Nat.strong_induction_on with
      | _ tv ih =>
        intro htv
        obtain ⟨c, hcmem, hc1, hc0⟩ := hinv.pivotAt tv (by omega)
        have hcm : c < m := (hinv.bounds (tv, c) hcmem).2
        have happ : ∑ x : Fin st.pivots.length,
            g x * pivotRows st.M n m st.pivots.length hKn x ⟨c, hcm⟩ = 0 := by
          have h3 := congrFun hg ⟨c, hcm⟩
          rw [Finset.sum_apply] at h3
          simpa using h3
        have hsingle : ∑ x : Fin st.pivots.length,
            g x * pivotRows st.M n m st.pivots.length hKn x ⟨c, hcm⟩ =
            g ⟨tv, htv⟩ * pivotRows st.M n m st.pivots.length hKn ⟨tv, htv⟩ ⟨c, hcm⟩ := by
          refine Finset.sum_eq_single (⟨tv, htv⟩ : Fin st.pivots.length) ?_ ?_
          · intro b _ hb
            rcases Nat.lt_trichotomy b.1 tv with hl | he | hgt
            · have hb0 : g b = 0 := ih b.1 hl b.2
              rw [hb0, zero_mul]
            · exact absurd (Fin.val_injective he) hb
            · have hz : st.M b.1 c = 0 := hc0 b.1 hgt (lt_of_lt_of_le b.2 hKn)
              show g b * z2 (st.M b.1 c) = 0
              rw [hz, z2_zero, mul_zero]
          · intro habs
            exact absurd (Finset.mem_univ _) habs
        rw [hsingle] at happ
        have hone : pivotRows st.M n m st.pivots.length hKn ⟨tv, htv⟩ ⟨c, hcm⟩ = 1 := by
          show z2 (st.M tv c) = 1
          rw [hc1, z2_one]
        rw [hone, mul_one] at happ
        exact happ
    intro t
    have := hall t.1 t.2
    simpa using this
  have hfin : Module.finrank (ZMod 2) (rowSpace A n m) = st.pivots.length := by
    rw [← hinv.spanEq, hspan2, finrank_span_eq_card hli, Fintype.card_fin]
  refine ⟨?_, ?_, rfl⟩
  · rw [hpiv]
    exact hinv.pw
  · rw [hpiv, hfin]

/-- Witness for `row_pivots_increasing_and_rank` on the concrete `1 × 1`
matrix `[[1]]`. -/
theorem row_pivots_increasing_and_rank_witness :
    (row_wise_gaussian_elimination_pivots (fun _ _ => (1 : Int)) 1 1).Pairwise
      (fun p q => p.1 < q.1 ∧ p.2 < q.2) ∧
    (row_wise_gaussian_elimination_pivots (fun _ _ => (1 : Int)) 1 1).length =
      Module.finrank (ZMod 2) (rowSpace (fun _ _ => (1 : Int)) 1 1) ∧
    get_rank (fun _ _ => (1 : Int)) 1 1 =
      (row_wise_gaussian_elimination_pivots (fun _ _ => (1 : Int)) 1 1).length :=
  row_pivots_increasing_and_rank (fun _ _ => (1 : Int)) 1 1 (le_refl 1) (by decide)

end RQC
